import Mathlib

/-!
# CRC frame-check simulation (`crc.cpp`): embedding and verified properties

The C++ program works on `int` arrays of binary digits.  An array together with
its length is a `List Int`.  `int` is the 32-bit two's-complement type; sums and
products are reduced with `wrap32`.  Two values the C++ standard leaves open are
parameters of the model:

* `ovf k`    : the result of `(int) pow(2, k)` for `k ≥ 31` (the power does not
               fit an `int`),
* `RAND_MAX` : the library constant of `<cstdlib>`.

`rand()` is a stream `rnd : Nat → Nat` of draws together with a cursor: a call
returns the draw at the cursor and advances the cursor by one, and every loop
that calls `rand()` passes the cursor on.  A `float` is an IEEE binary32 number,
held as the rational it denotes; a conversion to `float` and the `float`
division round to the nearest `float`, ties to even (`toFloat`), which is how
x86-64 evaluates line 94.  The remainder operator applied to a zero modulus (a
hardware trap) is `none`.
-/

namespace CRC

/-! ## Machine integers -/

/-- Reduction of an integer to the 32-bit two's-complement range. -/
def wrap32 (x : Int) : Int := (x + 2147483648) % 4294967296 - 2147483648

/-- The expression `(int) pow(2, e)`: `0` for a negative exponent (the power is
a fraction below one and the conversion truncates), the exact power up to
`2^30`, and the unspecified conversion result `ovf e` beyond. -/
def powInt (ovf : Nat → Int) (e : Int) : Int :=
  if e < 0 then 0 else if e ≤ 30 then 2 ^ e.toNat else wrap32 (ovf e.toNat)

/-- An out-of-range conversion as x86-64 performs it (`cvttsd2si` yields the
"integer indefinite" value `INT_MIN`); used for concrete evaluations only. -/
def cvt_x86 : Nat → Int := fun _ => -2147483648

/-- An out-of-range conversion as AArch64 performs it (`fcvtzs` saturates, the
result is `INT_MAX`); used for concrete evaluations only. -/
def cvt_sat : Nat → Int := fun _ => 2147483647

/-! ## `dec` (lines 14-19) -/

/-- The loop of `dec`: the digits still to visit and the running `total`.  The
digit at index `i` is multiplied by `(int) pow(2, len - i - 1)`, and
`len - i - 1` is the number of digits after it. -/
def decLoop (ovf : Nat → Int) : List Int → Int → Int
  | [], total => total
  | d :: ds, total =>
      decLoop ovf ds (wrap32 (total + wrap32 (d * powInt ovf (ds.length : Int))))

/-- The function `dec(num, len)`. -/
def dec (ovf : Nat → Int) (num : List Int) : Int := decLoop ovf num 0

/-! ## `bin` (lines 27-33) -/

/-- The loop of `bin`: `n` more digits, from index `i` on, are appended to
`total`.  `std::to_string` of an `int` is its decimal rendering, `toString`.
A read outside the array is not defined by the source and yields 0 here. -/
def binLoop (num : List Int) : Nat → Nat → String → String
  | 0, _, total => total
  | n + 1, i, total => binLoop num n (i + 1) (total ++ toString (num.getD i 0))

/-- The function `bin(num, start, end)`.  The indices are natural numbers; the
loop `for(i = start; i < end; i++)` runs `end - start` times, and not at all
when `start ≥ end`. -/
def bin (num : List Int) (start end_ : Nat) : String :=
  binLoop num (end_ - start) start ""

/-! ## `fcs_calc` (lines 50-55) -/

/-- The loop guard `r && p && floor(log2l(r)) >= floor(log2l(p))`.  Both
logarithms are evaluated only when `r` and `p` are non-zero; for a negative
argument `log2l` is NaN and the comparison is false, hence the two positivity
conjuncts.  For a positive `int` the value `floor(log2l(x))` is the index of the
highest set bit, `Nat.log2`. -/
def loopGuard (r p : Int) : Prop :=
  r ≠ 0 ∧ p ≠ 0 ∧ 0 < r ∧ 0 < p ∧ Nat.log2 p.toNat ≤ Nat.log2 r.toNat

instance loopGuardDecidable (r p : Int) : Decidable (loopGuard r p) := by
  unfold loopGuard; infer_instance

/-- The loop body `r ^ p << (int)(floor(log2l(r)) - floor(log2l(p)))` (the shift
binds tighter than the exclusive or).  It is only evaluated under `loopGuard`,
where both operands are positive. -/
def loopStep (r p : Int) : Int :=
  Int.ofNat (r.toNat ^^^ (p.toNat <<< (Nat.log2 r.toNat - Nat.log2 p.toNat)))

/-- The `while` loop of `fcs_calc`, returning the value of `r` at exit.  Every
iteration clears the highest set bit of `r`, which is the termination
argument. -/
def fcs_loop (r p : Int) : Int :=
  if loopGuard r p then fcs_loop (loopStep r p) p else r
termination_by r.toNat
decreasing_by
  rename_i h
  obtain ⟨_, _, hr, hp, hl⟩ := h
  have top : ∀ a : Nat, a ≠ 0 → a.testBit a.log2 = true := by
    intro a ha
    obtain ⟨i, hi, hb⟩ := Nat.ge_two_pow_implies_high_bit_true (Nat.log2_self_le ha)
    have hle : i ≤ a.log2 := by
      by_contra hc
      have h1 : a < 2 ^ i :=
        lt_of_lt_of_le Nat.lt_log2_self (Nat.pow_le_pow_right (by decide) (by omega))
      rw [Nat.testBit_lt_two_pow h1] at hb
      exact Bool.noConfusion hb
    have : i = a.log2 := le_antisymm hle hi
    rw [← this]; exact hb
  have above : ∀ a i : Nat, a.log2 < i → a.testBit i = false := fun a i hi =>
    Nat.testBit_lt_two_pow
      (lt_of_lt_of_le Nat.lt_log2_self (Nat.pow_le_pow_right (by decide) hi))
  have hlt : r.toNat ^^^ (p.toNat <<< (Nat.log2 r.toNat - Nat.log2 p.toNat))
      < 2 ^ Nat.log2 r.toNat := by
    apply Nat.lt_pow_two_of_testBit
    intro i hi
    rw [Nat.testBit_xor, Nat.testBit_shiftLeft]
    rcases Nat.eq_or_lt_of_le hi with h2 | h2
    · have e1 := top r.toNat (by omega)
      have e2 := top p.toNat (by omega)
      have e3 : i - (r.toNat.log2 - p.toNat.log2) = p.toNat.log2 := by omega
      subst h2
      simp [e1, e2, e3]
    · have e1 := above r.toNat i h2
      have e2 := above p.toNat (i - (r.toNat.log2 - p.toNat.log2)) (by omega)
      simp [e1, e2]
  have := lt_of_lt_of_le hlt (Nat.log2_self_le (n := r.toNat) (by omega))
  simpa [loopStep] using this

/-- The value of `r` after `n` iterations of the `while` loop of `fcs_calc`,
or its value at the exit when the loop leaves earlier. -/
def loopState : Nat → Int → Int → Int
  | 0, r, _ => r
  | n + 1, r, p => if loopGuard r p then loopState n (loopStep r p) p else r

/-- The function `fcs_calc(key, key_len, packet, packet_len)`.  The final
`r % (int) pow(2, key_len - 1)` is the truncating remainder of C; a zero
modulus traps, which is `none`. -/
def fcs_calc (ovf : Nat → Int) (key packet : List Int) : Option Int :=
  let r := dec ovf packet
  let p := dec ovf key
  let r1 := fcs_loop r p
  let m := powInt ovf ((key.length : Int) - 1)
  if m = 0 then none else some (Int.tmod r1 m)

/-! ## `crc` (lines 70-107) -/

/-- One call of `rand()` with the cursor at `pos`: the draw and the advanced
cursor. -/
def rand (rnd : Nat → Nat) (pos : Nat) : Nat × Nat := (rnd pos, pos + 1)

/-- Lines 76-77: the loop `sender[i] = rand() % 2`, started with the cursor at
`pos` and run `data_len` times; the digits written and the cursor after the
loop. -/
def fillData (rnd : Nat → Nat) : Nat → Nat → List Int × Nat
  | pos, 0 => ([], pos)
  | pos, n + 1 =>
      let d := rand rnd pos
      let rest := fillData rnd d.2 n
      (((d.1 % 2 : Nat) : Int) :: rest.1, rest.2)

/-- Lines 72-81: the sender array after the data region is filled and the
remaining `packet_len - data_len` digits are set to zero. -/
def initSender (rnd : Nat → Nat) (pos data_len key_len : Nat) : List Int :=
  (fillData rnd pos data_len).1 ++ List.replicate (data_len + key_len - 1 - data_len) 0

/-- Lines 84-87: the loop writing the FCS.  `n` is the number of positions
`data_len .. data_len + n - 1` still to be written, so the loop index is
`i = data_len + n - 1`; the guard `i >= data_len` is `n > 0` and the guard
`fcs >= 0` is tested before every iteration. -/
def writeFcs (data_len : Nat) : Nat → List Int → Int → List Int
  | 0, sender, _ => sender
  | n + 1, sender, fcs =>
      if 0 ≤ fcs then
        writeFcs data_len n (sender.set (data_len + n) (Int.tmod fcs 2)) (Int.tdiv fcs 2)
      else sender

/-- Rounding of a rational to the nearest integer, a tie to the even one. -/
def roundHalfEven (q : ℚ) : Int :=
  if q - ⌊q⌋ < 1 / 2 then ⌊q⌋
  else if 1 / 2 < q - ⌊q⌋ then ⌊q⌋ + 1
  else if ⌊q⌋ % 2 = 0 then ⌊q⌋ else ⌊q⌋ + 1

/-- The `float` nearest to a non-negative value: the value is scaled so that
its integer part has the 24 bits of a binary32 significand, rounded to the
nearest integer (ties to even) and scaled back.  The exponent is not bounded:
the `int` values of line 94 and their quotients lie far inside the range of
the normal binary32 numbers.  Line 94 converts no negative value. -/
def toFloat (x : ℚ) : ℚ :=
  if x ≤ 0 then 0
  else (roundHalfEven (x / 2 ^ (Int.log 2 x - 23)) : ℚ) * 2 ^ (Int.log 2 x - 23)

/-- The test of line 94,
`static_cast<float>(rand()) / static_cast<float>(RAND_MAX) < ber`, for the
draw `draw`: both operands are converted to `float`, the quotient is rounded
to `float` and compared with the `float` parameter `ber`.  With
`RAND_MAX = 0` the quotient is an infinity or a NaN and the comparison is
false. -/
def belowBer (RAND_MAX : Nat) (ber : ℚ) (draw : Nat) : Prop :=
  RAND_MAX ≠ 0 ∧ toFloat (toFloat (draw : ℚ) / toFloat (RAND_MAX : ℚ)) < ber

instance belowBerDecidable (RAND_MAX : Nat) (ber : ℚ) (draw : Nat) :
    Decidable (belowBer RAND_MAX ber draw) := by
  unfold belowBer; infer_instance

/-- Lines 92-100: the channel, started with the cursor at `pos`.  The digits of
the sender are visited in order, one call of `rand()` each; the result is the
receiver array, the counter `flag` and the cursor after the loop. -/
def channel (RAND_MAX : Nat) (rnd : Nat → Nat) (ber : ℚ) :
    List Int → Nat → List Int × Nat × Nat
  | [], pos => ([], 0, pos)
  | s :: rest, pos =>
      let d := rand rnd pos
      let out := channel RAND_MAX rnd ber rest d.2
      if belowBer RAND_MAX ber d.1 then
        ((if s ≠ 0 then 0 else 1) :: out.1, out.2.1 + 1, out.2.2)
      else (s :: out.1, out.2.1, out.2.2)

/-- Lines 103-106: the value returned by `crc` for a receiver array. -/
def errorFlag (ovf : Nat → Int) (key receiver : List Int) : Option Int :=
  match fcs_calc ovf key receiver with
  | none => none
  | some v => some (if v ≠ 0 then 1 else 0)

/-- What one call of `crc` leaves behind: the returned `int`, the new value of
the reference parameter `counted_errors` and the cursor of the random stream. -/
structure CrcOut where
  ret : Int
  counted_errors : Nat
  pos : Nat
deriving DecidableEq, Repr

/-- The local variables of `crc` at its `return`: the two arrays, the counter
`flag` of flipped digits and the returned value, together with the cursor of
the random stream. -/
structure CrcLocals where
  sender : List Int
  receiver : List Int
  flag : Nat
  error : Int
  pos : Nat
deriving DecidableEq, Repr

/-- The body of `crc` up to its `return`, without the update of
`counted_errors`. -/
def crcLocals (ovf : Nat → Int) (RAND_MAX : Nat) (rnd : Nat → Nat) (pos : Nat)
    (data_len : Nat) (key : List Int) (ber : ℚ) : Option CrcLocals :=
  let packet_len := data_len + key.length - 1
  let sender0 := initSender rnd pos data_len key.length
  let pos1 := (fillData rnd pos data_len).2
  match fcs_calc ovf key sender0 with
  | none => none
  | some fcs =>
      let sender := writeFcs data_len (packet_len - data_len) sender0 fcs
      let out := channel RAND_MAX rnd ber sender pos1
      match errorFlag ovf key out.1 with
      | none => none
      | some e => some ⟨sender, out.1, out.2.1, e, out.2.2⟩

/-- The function `crc`.  `counted_errors` is an `unsigned long long`, so the
increment `if(flag) counted_errors++` is taken modulo `2^64`.  The cursor of
the random stream is the one the channel loop leaves. -/
def crc (ovf : Nat → Int) (RAND_MAX : Nat) (rnd : Nat → Nat) (pos : Nat)
    (data_len : Nat) (key : List Int) (ber : ℚ) (counted_errors : Nat) : Option CrcOut :=
  match crcLocals ovf RAND_MAX rnd pos data_len key ber with
  | none => none
  | some l =>
      some ⟨l.error,
        if l.flag ≠ 0 then (counted_errors + 1) % 18446744073709551616 else counted_errors,
        l.pos⟩

/-! ## The trial loop of `main` (lines 120-122) -/

/-- The counters of `main` and the cursor of the random stream. -/
structure MainState where
  detected_errors : Nat
  real_errors : Nat
  pos : Nat
deriving DecidableEq, Repr

/-- The state after `n` iterations of the loop
`detected_errors += crc(k, p, key_len, ber, real_errors, messages)`, started
from zero counters. -/
def trialLoop (ovf : Nat → Int) (RAND_MAX : Nat) (rnd : Nat → Nat)
    (data_len : Nat) (key : List Int) (ber : ℚ) : Nat → Option MainState
  | 0 => some ⟨0, 0, 0⟩
  | n + 1 =>
      match trialLoop ovf RAND_MAX rnd data_len key ber n with
      | none => none
      | some st =>
          match crc ovf RAND_MAX rnd st.pos data_len key ber st.real_errors with
          | none => none
          | some out =>
              some ⟨(st.detected_errors + out.ret.toNat) % 18446744073709551616,
                out.counted_errors, out.pos⟩

/-- The constant `test_cases` of `main`. -/
def test_cases : Nat := 10000000

/-- The trial loop with the constants of `main`: `k = 20`, `p = 110101` and the
`float` nearest to `0.001`. -/
def mainLoop (ovf : Nat → Int) (RAND_MAX : Nat) (rnd : Nat → Nat) (n : Nat) :
    Option MainState :=
  trialLoop ovf RAND_MAX rnd 20 [1, 1, 0, 1, 0, 1] (8589935 / 8589934592) n

/-! ## Specification vocabulary -/

/-- Every element is a binary digit. -/
def IsBits (num : List Int) : Prop := ∀ d ∈ num, d = 0 ∨ d = 1

instance isBitsDecidable (num : List Int) : Decidable (IsBits num) := by
  unfold IsBits; infer_instance

/-- The big-endian value of a digit sequence. -/
def beVal : List Int → Int
  | [] => 0
  | d :: ds => d * 2 ^ ds.length + beVal ds

/-- The exclusive or of the shifted copies `b <<< i` of `b`, over the set bits
`i < n` of `a`. -/
def clmulN : Nat → Nat → Nat → Nat
  | 0, _, _ => 0
  | n + 1, a, b => (if a.testBit n then b <<< n else 0) ^^^ clmulN n a b

/-- Carry-less product: the product of `a` and `b` read as polynomials over the
two-element field.  Every set bit of `a` is at a position below `a`. -/
def clmul (a b : Nat) : Nat := clmulN a a b

/-- Bit length of a natural number: `0` for `0`, else `floor(log2 x) + 1`. -/
def bitLength (x : Nat) : Nat := if x = 0 then 0 else Nat.log2 x + 1

/-- The value of a digit sequence as a natural number. -/
def natVal (num : List Int) : Nat := (beVal num).toNat

/-- The `n`-digit binary expansion of `v`, most significant digit first, padded
with leading zeros. -/
def toBits : Nat → Int → List Int
  | 0, _ => []
  | n + 1, v => toBits n (v / 2) ++ [v % 2]

/-- The loop of `dec` over the unbounded integers, with exact powers of two
and no reduction to 32 bits. -/
def decLoopZ : List Int → Int → Int
  | [], total => total
  | d :: ds, total => decLoopZ ds (total + d * 2 ^ ds.length)

/-- The function `dec` over the unbounded integers. -/
def decZ (num : List Int) : Int := decLoopZ num 0

/-- The function `fcs_calc` over the unbounded integers. -/
def fcs_calcZ (key packet : List Int) : Int :=
  fcs_loop (decZ packet) (decZ key) % 2 ^ (key.length - 1)

/-- One step of the long division as the doc comment of `fcs_calc` describes
it: the next packet digit `d` is pulled down at the end of the remainder
register, and when the register has reached `key_len` bits with its top bit
set it is XORed with the key `p`. -/
def serialStep (p key_len : Nat) (reg : Nat) (d : Int) : Nat :=
  if (2 * reg + d.toNat).testBit (key_len - 1) then (2 * reg + d.toNat) ^^^ p
  else 2 * reg + d.toNat

/-- The bit-serial long division of the doc comment of `fcs_calc`: the packet
is scanned most significant digit first, starting from an empty register; the
register after the last digit is the FCS. -/
def serialDiv (key packet : List Int) : Nat :=
  packet.foldl (serialStep (natVal key) key.length) 0

/-- Digit-wise exclusive or of two digit sequences. -/
def xorBits (a b : List Int) : List Int :=
  List.zipWith (fun x y => if x = y then 0 else 1) a b

/-- The flip pattern of the channel for a frame of `n` digits: digit `i` is 1
when the draw at `pos + i` passes the test of line 94, else 0. -/
def flipPattern (RAND_MAX : Nat) (rnd : Nat → Nat) (ber : ℚ) (n pos : Nat) : List Int :=
  (List.range n).map
    (fun i => if belowBer RAND_MAX ber (rnd (pos + i)) then 1 else 0)

/-- A value that fits the non-negative range `[0, 2^31)` of an `int`. -/
def InInt31 (x : Int) : Prop := 0 ≤ x ∧ x < 2147483648

/-- Every iteration of the loop of `dec` on `num` stays inside `[0, 2^31)`: at
the digit `d` that follows the prefix `pre`, the loop is in the state with
`total = beVal pre * 2^(post.length + 1)`, the exponent is at most 30 so that
`(int) pow(2, ...)` is the exact power, and the power, the product, the running
total and the new total are all in range. -/
def DecInRange (ovf : Nat → Int) (num : List Int) : Prop :=
  ∀ (pre : List Int) (d : Int) (post : List Int), num = pre ++ d :: post →
    dec ovf num = decLoop ovf (d :: post) (beVal pre * 2 ^ (post.length + 1)) ∧
    post.length ≤ 30 ∧ powInt ovf (post.length : Int) = 2 ^ post.length ∧
    InInt31 (2 ^ post.length) ∧ InInt31 (d * 2 ^ post.length) ∧
    InInt31 (beVal pre * 2 ^ (post.length + 1)) ∧
    InInt31 (beVal pre * 2 ^ (post.length + 1) + d * 2 ^ post.length)

/-- Every iteration of the loop of `fcs_calc` started at `r`, `p` stays inside
`[0, 2^31)`: the value of `r` after any number of iterations is in range, and
when the guard holds there the shift amount is at most 30 and the shifted
divisor and the result of the exclusive or are in range. -/
def LoopInRange (r p : Int) : Prop :=
  ∀ n : Nat, InInt31 (loopState n r p) ∧
    (loopGuard (loopState n r p) p →
      Nat.log2 (loopState n r p).toNat - Nat.log2 p.toNat ≤ 30 ∧
      InInt31 ((p.toNat <<< (Nat.log2 (loopState n r p).toNat - Nat.log2 p.toNat) : Nat) : Int) ∧
      InInt31 (loopStep (loopState n r p) p))

/-! ## Digit sequences and `dec` -/

theorem wrap32_id (x : Int) (h0 : -2147483648 ≤ x) (h1 : x < 2147483648) : wrap32 x = x := by
  unfold wrap32; omega

theorem wrap32_range (x : Int) : -2147483648 ≤ wrap32 x ∧ wrap32 x < 2147483648 := by
  unfold wrap32; omega

theorem isBits_cons {d : Int} {ds : List Int} :
    IsBits (d :: ds) ↔ (d = 0 ∨ d = 1) ∧ IsBits ds := by
  simp [IsBits]

theorem isBits_append {a b : List Int} : IsBits (a ++ b) ↔ IsBits a ∧ IsBits b := by
  simp only [IsBits, List.mem_append]
  constructor
  · intro h; exact ⟨fun d hd => h d (Or.inl hd), fun d hd => h d (Or.inr hd)⟩
  · rintro ⟨h1, h2⟩ d (hd | hd)
    · exact h1 d hd
    · exact h2 d hd

theorem isBits_replicate_zero (n : Nat) : IsBits (List.replicate n 0) := by
  intro d hd; left; exact (List.mem_replicate.mp hd).2

theorem beVal_nonneg {num : List Int} (h : IsBits num) : 0 ≤ beVal num := by
  induction num with
  | nil => simp [beVal]
  | cons d ds ih =>
    rw [isBits_cons] at h
    have := ih h.2
    have hp : (0 : Int) < 2 ^ ds.length := by positivity
    rcases h.1 with h0 | h0 <;> subst h0 <;> simp [beVal] <;> omega

theorem beVal_lt {num : List Int} (h : IsBits num) : beVal num < 2 ^ num.length := by
  induction num with
  | nil => simp [beVal]
  | cons d ds ih =>
    rw [isBits_cons] at h
    have := ih h.2
    have hp : (0 : Int) < 2 ^ ds.length := by positivity
    rcases h.1 with h0 | h0 <;> subst h0 <;> simp [beVal, pow_succ] <;> omega

theorem beVal_append (a b : List Int) :
    beVal (a ++ b) = beVal a * 2 ^ b.length + beVal b := by
  induction a with
  | nil => simp [beVal]
  | cons d ds ih =>
    show d * 2 ^ (ds ++ b).length + beVal (ds ++ b) = _
    rw [ih, List.length_append, pow_add]
    simp only [beVal]
    ring

theorem beVal_replicate_zero (n : Nat) : beVal (List.replicate n 0) = 0 := by
  induction n with
  | zero => simp [beVal]
  | succ n ih => simp [List.replicate_succ, beVal, ih]

theorem pow_le_pow31 {n : Nat} (h : n ≤ 31) : (2 : Int) ^ n ≤ 2147483648 := by
  have : (2 : Int) ^ n ≤ 2 ^ 31 := pow_le_pow_right₀ (by norm_num) h
  simpa using this

theorem powInt_small (ovf : Nat → Int) {n : Nat} (h : n ≤ 30) :
    powInt ovf (n : Int) = 2 ^ n := by
  unfold powInt
  have h1 : ¬ ((n : Int) < 0) := by omega
  have h2 : (n : Int) ≤ 30 := by omega
  simp [h1, h2]

theorem decLoop_eq (ovf : Nat → Int) (ds : List Int) (total : Int) (h : IsBits ds)
    (hlen : ds.length ≤ 31) (h0 : 0 ≤ total) (h1 : total + beVal ds < 2147483648) :
    decLoop ovf ds total = total + beVal ds := by
  induction ds generalizing total with
  | nil => simp [decLoop, beVal]
  | cons d ds ih =>
    rw [isBits_cons] at h
    simp only [List.length_cons] at hlen
    have hb := beVal_nonneg h.2
    have hp : (0 : Int) < 2 ^ ds.length := by positivity
    have hd0 : 0 ≤ d * 2 ^ ds.length := by
      rcases h.1 with e | e <;> subst e <;> simp
    simp only [beVal] at h1
    simp only [decLoop, beVal]
    rw [powInt_small ovf (by omega : ds.length ≤ 30)]
    rw [wrap32_id (d * 2 ^ ds.length) (by omega) (by omega)]
    rw [wrap32_id (total + d * 2 ^ ds.length) (by omega) (by omega)]
    rw [ih (total + d * 2 ^ ds.length) h.2 (by omega) (by omega) (by omega)]
    ring

theorem dec_eq_beVal (ovf : Nat → Int) (num : List Int) (h : IsBits num)
    (hlen : num.length ≤ 31) : dec ovf num = beVal num := by
  have h1 := beVal_lt h
  have h2 := pow_le_pow31 hlen
  unfold dec
  rw [decLoop_eq ovf num 0 h hlen (le_refl 0) (by omega)]
  simp

/-! ## Carry-less arithmetic on natural numbers -/

theorem testBit_log2 (a : Nat) (ha : a ≠ 0) : a.testBit a.log2 = true := by
  obtain ⟨i, hi, hb⟩ := Nat.ge_two_pow_implies_high_bit_true (Nat.log2_self_le ha)
  have hle : i ≤ a.log2 := by
    by_contra hc
    have h1 : a < 2 ^ i :=
      lt_of_lt_of_le Nat.lt_log2_self (Nat.pow_le_pow_right (by decide) (by omega))
    rw [Nat.testBit_lt_two_pow h1] at hb
    exact Bool.noConfusion hb
  have : i = a.log2 := le_antisymm hle hi
  rw [← this]; exact hb

theorem testBit_of_lt_two_pow {a n i : Nat} (h : a < 2 ^ n) (hi : n ≤ i) :
    a.testBit i = false :=
  Nat.testBit_lt_two_pow (lt_of_lt_of_le h (Nat.pow_le_pow_right (by decide) hi))

theorem xor_swap_of_eq {a b c d : Nat} (h : a ^^^ b = c ^^^ d) : a ^^^ c = b ^^^ d := by
  apply Nat.eq_of_testBit_eq
  intro i
  have := congrArg (fun x => x.testBit i) h
  simp only [Nat.testBit_xor] at this ⊢
  revert this
  cases a.testBit i <;> cases b.testBit i <;> cases c.testBit i <;> cases d.testBit i <;> simp

theorem shiftLeft_xor (a b s : Nat) : (a ^^^ b) <<< s = (a <<< s) ^^^ (b <<< s) := by
  apply Nat.eq_of_testBit_eq
  intro i
  simp only [Nat.testBit_xor, Nat.testBit_shiftLeft]
  cases decide (i ≥ s) <;> simp

theorem ite_xor_split (p q : Bool) (s x y : Nat) :
    (if (p ^^ q) = true then s else 0) ^^^ (x ^^^ y) =
      ((if p = true then s else 0) ^^^ x) ^^^ ((if q = true then s else 0) ^^^ y) := by
  apply Nat.eq_of_testBit_eq
  intro i
  cases p <;> cases q <;> cases hs : s.testBit i <;> cases hx : x.testBit i <;>
    cases hy : y.testBit i <;> simp [hs, hx, hy]

theorem clmulN_xor_left (n a c b : Nat) :
    clmulN n (a ^^^ c) b = clmulN n a b ^^^ clmulN n c b := by
  induction n with
  | zero => simp [clmulN]
  | succ n ih =>
    simp only [clmulN, ih, Nat.testBit_xor]
    exact ite_xor_split _ _ _ _ _

theorem clmulN_add (n k a b : Nat) (h : a < 2 ^ n) :
    clmulN (n + k) a b = clmulN n a b := by
  induction k with
  | zero => rfl
  | succ k ih =>
    show (if a.testBit (n + k) then b <<< (n + k) else 0) ^^^ clmulN (n + k) a b = _
    rw [testBit_of_lt_two_pow h (Nat.le_add_right n k), ih]
    simp

theorem clmul_eq_clmulN {a n : Nat} (b : Nat) (h : a < 2 ^ n) : clmul a b = clmulN n a b := by
  unfold clmul
  rcases Nat.le_total n a with hle | hle
  · obtain ⟨k, rfl⟩ := Nat.exists_eq_add_of_le hle
    exact clmulN_add n k _ b h
  · obtain ⟨k, rfl⟩ := Nat.exists_eq_add_of_le hle
    exact (clmulN_add a k a b (Nat.lt_two_pow a)).symm

theorem clmul_zero_left (b : Nat) : clmul 0 b = 0 := rfl

theorem clmulN_zero_right (n a : Nat) : clmulN n a 0 = 0 := by
  induction n with
  | zero => rfl
  | succ n ih => simp [clmulN, ih]

theorem clmul_zero_right (a : Nat) : clmul a 0 = 0 := clmulN_zero_right a a

theorem clmul_xor_left (a c b : Nat) : clmul (a ^^^ c) b = clmul a b ^^^ clmul c b := by
  have ha : a < 2 ^ (a + c) :=
    lt_of_lt_of_le (Nat.lt_two_pow a) (Nat.pow_le_pow_right (by decide) (Nat.le_add_right a c))
  have hc : c < 2 ^ (a + c) :=
    lt_of_lt_of_le (Nat.lt_two_pow c) (Nat.pow_le_pow_right (by decide) (Nat.le_add_left c a))
  rw [clmul_eq_clmulN b (Nat.xor_lt_two_pow ha hc), clmul_eq_clmulN b ha,
    clmul_eq_clmulN b hc, clmulN_xor_left]

theorem clmulN_eq_zero (n a b : Nat) (h : ∀ i, i < n → a.testBit i = false) :
    clmulN n a b = 0 := by
  induction n with
  | zero => rfl
  | succ n ih =>
    show (if a.testBit n then b <<< n else 0) ^^^ clmulN n a b = 0
    rw [h n (Nat.lt_succ_self n), ih (fun i hi => h i (Nat.lt_succ_of_lt hi))]
    simp

theorem clmul_two_pow (s b : Nat) : clmul (2 ^ s) b = b <<< s := by
  have h1 : 2 ^ s < 2 ^ (s + 1) := Nat.pow_lt_pow_right (by decide) (Nat.lt_succ_self s)
  rw [clmul_eq_clmulN b h1]
  show (if (2 ^ s).testBit s then b <<< s else 0) ^^^ clmulN s (2 ^ s) b = _
  rw [Nat.testBit_two_pow_self, clmulN_eq_zero s (2 ^ s) b]
  · simp
  · intro i hi
    exact Nat.testBit_two_pow_of_ne (by omega)

theorem shiftLeft_lt_two_pow (b n : Nat) :
    b <<< n < 2 ^ (n + 1 + b.log2) := by
  rw [Nat.shiftLeft_eq]
  have h1 : b < 2 ^ (b.log2 + 1) := Nat.lt_log2_self
  have h2 : 2 ^ (n + 1 + b.log2) = 2 ^ (b.log2 + 1) * 2 ^ n := by
    rw [← pow_add]; congr 1; omega
  rw [h2]
  exact Nat.mul_lt_mul_of_pos_right h1 (by positivity)

theorem clmulN_lt (n a b : Nat) : clmulN n a b < 2 ^ (n + b.log2) := by
  induction n with
  | zero => show 0 < _; positivity
  | succ n ih =>
    show (if a.testBit n then b <<< n else 0) ^^^ clmulN n a b < _
    apply Nat.xor_lt_two_pow
    · split
      · exact shiftLeft_lt_two_pow b n
      · positivity
    · exact lt_of_lt_of_le ih (Nat.pow_le_pow_right (by decide) (by omega))

/-- The leading bit of a carry-less product is at the sum of the leading
positions of its factors. -/
theorem clmul_testBit_top (a b : Nat) (ha : a ≠ 0) (hb : b ≠ 0) :
    (clmul a b).testBit (a.log2 + b.log2) = true := by
  rw [clmul_eq_clmulN b (Nat.lt_log2_self (n := a))]
  show ((if a.testBit a.log2 then b <<< a.log2 else 0) ^^^ clmulN a.log2 a b).testBit _ = true
  rw [testBit_log2 a ha, if_pos rfl, Nat.testBit_xor, Nat.testBit_shiftLeft,
    Nat.testBit_lt_two_pow (clmulN_lt a.log2 a b)]
  simp [testBit_log2 b hb]

theorem clmul_ge (a b : Nat) (ha : a ≠ 0) (hb : b ≠ 0) : 2 ^ b.log2 ≤ clmul a b :=
  le_trans (Nat.pow_le_pow_right (by decide) (Nat.le_add_left _ _))
    (Nat.testBit_implies_ge (clmul_testBit_top a b ha hb))

/-- The bit of a carry-less product at the lowest set position of its first
factor is the lowest bit of the second factor. -/
theorem clmulN_testBit_low (n a b t : Nat) (h : ∀ i, i < t → a.testBit i = false) :
    (clmulN n a b).testBit t = (decide (t < n) && (a.testBit t && b.testBit 0)) := by
  induction n with
  | zero => simp [clmulN]
  | succ n ih =>
    show ((if a.testBit n then b <<< n else 0) ^^^ clmulN n a b).testBit t = _
    rw [Nat.testBit_xor, ih]
    rcases Nat.lt_trichotomy n t with hlt | heq | hgt
    · have h1 : ¬ t < n := by omega
      have h2 : ¬ t < n + 1 := by omega
      simp [h n hlt, h1, h2]
    · subst heq
      cases hbit : a.testBit n <;> simp [hbit]
    · have h1 : t < n + 1 := by omega
      have h2 : ¬ n ≤ t := by omega
      cases hbit : a.testBit n <;> simp [hbit, hgt, h1, h2]

/-- Uniqueness of quotient and remainder of a carry-less division. -/
theorem clmul_div_unique {p q1 q2 r1 r2 : Nat} (hp : p ≠ 0)
    (h1 : r1 < 2 ^ p.log2) (h2 : r2 < 2 ^ p.log2)
    (h : clmul q1 p ^^^ r1 = clmul q2 p ^^^ r2) : q1 = q2 ∧ r1 = r2 := by
  have e : clmul (q1 ^^^ q2) p = r1 ^^^ r2 := by
    rw [clmul_xor_left]; exact xor_swap_of_eq h
  have hq : q1 = q2 := by
    by_contra hne
    have hx : q1 ^^^ q2 ≠ 0 := fun h0 => hne (Nat.xor_eq_zero.mp h0)
    have := clmul_ge (q1 ^^^ q2) p hx hp
    have := Nat.xor_lt_two_pow h1 h2
    omega
  subst hq
  exact ⟨rfl, Nat.xor_right_inj.mp h⟩

/-! ## The division loop -/

theorem fcs_loop_of_guard {r p : Int} (h : loopGuard r p) :
    fcs_loop r p = fcs_loop (loopStep r p) p := by
  rw [fcs_loop, if_pos h]

theorem fcs_loop_of_not_guard {r p : Int} (h : ¬ loopGuard r p) : fcs_loop r p = r := by
  rw [fcs_loop, if_neg h]

theorem loopGuard_natCast (r p : Nat) :
    loopGuard (r : Int) (p : Int) ↔ r ≠ 0 ∧ p ≠ 0 ∧ p.log2 ≤ r.log2 := by
  unfold loopGuard
  simp only [Int.toNat_ofNat]
  constructor
  · rintro ⟨h1, h2, _, _, h5⟩
    exact ⟨by exact_mod_cast h1, by exact_mod_cast h2, h5⟩
  · rintro ⟨h1, h2, h5⟩
    refine ⟨by exact_mod_cast h1, by exact_mod_cast h2, ?_, ?_, h5⟩ <;> omega

theorem loopStep_natCast (r p : Nat) :
    loopStep (r : Int) (p : Int) = ((r ^^^ (p <<< (r.log2 - p.log2)) : Nat) : Int) := by
  simp [loopStep]

theorem xor_shift_lt (a b : Nat) (ha : a ≠ 0) (hb : b ≠ 0) (h : b.log2 ≤ a.log2) :
    a ^^^ (b <<< (a.log2 - b.log2)) < a := by
  have h1 : a ^^^ (b <<< (a.log2 - b.log2)) < 2 ^ a.log2 := by
    apply Nat.lt_pow_two_of_testBit
    intro i hi
    rw [Nat.testBit_xor, Nat.testBit_shiftLeft]
    rcases Nat.eq_or_lt_of_le hi with h2 | h2
    · subst h2
      have e3 : a.log2 - (a.log2 - b.log2) = b.log2 := by omega
      simp [testBit_log2 a ha, testBit_log2 b hb, e3]
    · have e1 := testBit_of_lt_two_pow (Nat.lt_log2_self (n := a)) (by omega : a.log2 + 1 ≤ i)
      have e2 := testBit_of_lt_two_pow (Nat.lt_log2_self (n := b))
        (by omega : b.log2 + 1 ≤ i - (a.log2 - b.log2))
      simp [e1, e2]
  exact lt_of_lt_of_le h1 (Nat.log2_self_le ha)

/-- The loop leaves the carry-less remainder: the exit value differs from the
entry value by a carry-less multiple of the divisor and is shorter than the
divisor. -/
theorem fcs_loop_spec (p : Nat) (hp : p ≠ 0) (r : Nat) :
    ∃ Q R : Nat, fcs_loop (r : Int) (p : Int) = (R : Int) ∧ r = clmul Q p ^^^ R ∧
      R < 2 ^ p.log2 ∧ R ≤ r := by
  induction r using Nat.strong_induction_on with
  | _ r ih =>
    by_cases hg : loopGuard (r : Int) (p : Int)
    · have hg2 := (loopGuard_natCast r p).mp hg
      obtain ⟨hr, _, hl⟩ := hg2
      have hlt := xor_shift_lt r p hr hp hl
      obtain ⟨Q, R, e1, e2, e3, e4⟩ := ih _ hlt
      refine ⟨Q ^^^ 2 ^ (r.log2 - p.log2), R, ?_, ?_, e3, by omega⟩
      · rw [fcs_loop_of_guard hg, loopStep_natCast]; exact e1
      · rw [clmul_xor_left, clmul_two_pow, Nat.xor_assoc,
          Nat.xor_comm (p <<< (r.log2 - p.log2)) R, ← Nat.xor_assoc, ← e2,
          Nat.xor_assoc, Nat.xor_self, Nat.xor_zero]
    · refine ⟨0, r, fcs_loop_of_not_guard hg, by simp [clmul_zero_left], ?_, le_refl r⟩
      rw [loopGuard_natCast] at hg
      by_cases hr : r = 0
      · subst hr; positivity
      · have : r.log2 < p.log2 := by
          by_contra hc
          exact hg ⟨hr, hp, by omega⟩
        exact (Nat.log2_lt hr).mp this

theorem fcs_loop_zero_divisor (r : Int) : fcs_loop r 0 = r :=
  fcs_loop_of_not_guard (fun h => h.2.1 rfl)

theorem fcs_loop_zero (p : Int) : fcs_loop 0 p = 0 :=
  fcs_loop_of_not_guard (fun h => h.1 rfl)

/-- The exit value of the loop is determined by the division equation. -/
theorem fcs_loop_unique {p r Q R : Nat} (hp : p ≠ 0) (h : r = clmul Q p ^^^ R)
    (hR : R < 2 ^ p.log2) : fcs_loop (r : Int) (p : Int) = (R : Int) := by
  obtain ⟨Q1, R1, e1, e2, e3, _⟩ := fcs_loop_spec p hp r
  rw [e1]
  have := (clmul_div_unique hp e3 hR (e2.symm.trans h)).2
  rw [this]

/-! ## `fcs_calc` on digit sequences of supported width -/

theorem natVal_cast {num : List Int} (h : IsBits num) : (natVal num : Int) = beVal num :=
  Int.toNat_of_nonneg (beVal_nonneg h)

theorem natVal_lt {num : List Int} (h : IsBits num) : natVal num < 2 ^ num.length := by
  have h1 := beVal_lt h
  rw [← natVal_cast h] at h1
  exact_mod_cast h1

theorem dec_eq_natVal (ovf : Nat → Int) {num : List Int} (h : IsBits num)
    (hlen : num.length ≤ 31) : dec ovf num = (natVal num : Int) := by
  rw [dec_eq_beVal ovf num h hlen, natVal_cast h]

theorem powInt_pred (ovf : Nat → Int) {k : Nat} (h1 : 1 ≤ k) (h2 : k ≤ 31) :
    powInt ovf ((k : Int) - 1) = 2 ^ (k - 1) := by
  have e : (k : Int) - 1 = ((k - 1 : Nat) : Int) := by omega
  rw [e, powInt_small ovf (by omega)]

theorem fcs_loop_natCast_le (r : Nat) (p : Int) :
    ∃ R : Nat, fcs_loop (r : Int) p = (R : Int) ∧ R ≤ r := by
  by_cases hp : 0 < p
  · obtain ⟨Q, R, e1, _, _, e4⟩ := fcs_loop_spec p.toNat (by omega) r
    rw [Int.toNat_of_nonneg (le_of_lt hp)] at e1
    exact ⟨R, e1, e4⟩
  · exact ⟨r, fcs_loop_of_not_guard (fun h => hp h.2.2.2.1), le_refl r⟩

theorem tmod_two_pow_natCast (R n : Nat) :
    Int.tmod (R : Int) (2 ^ n) = ((R % 2 ^ n : Nat) : Int) := by
  rw [Int.tmod_eq_emod (by positivity) (by positivity)]
  push_cast
  rfl

/-- Within the supported width `fcs_calc` returns the exit value of the loop
reduced modulo `2 ^ (key_len - 1)`. -/
theorem fcs_calc_eq (ovf : Nat → Int) (key : List Int) {packet : List Int} (hp : IsBits packet)
    (hpl : packet.length ≤ 31) (hk1 : 1 ≤ key.length) (hk2 : key.length ≤ 31) :
    ∃ R : Nat, fcs_loop (natVal packet : Int) (dec ovf key) = (R : Int) ∧
      R ≤ natVal packet ∧
      fcs_calc ovf key packet = some ((R % 2 ^ (key.length - 1) : Nat) : Int) := by
  obtain ⟨R, e1, e2⟩ := fcs_loop_natCast_le (natVal packet) (dec ovf key)
  refine ⟨R, e1, e2, ?_⟩
  unfold fcs_calc
  simp only [dec_eq_natVal ovf hp hpl, powInt_pred ovf hk1 hk2, e1]
  have : (2 : Int) ^ (key.length - 1) ≠ 0 := by positivity
  rw [if_neg this, tmod_two_pow_natCast]

/-- For a non-zero key of supported width the result of `fcs_calc` is the
carry-less remainder of the packet by the key. -/
theorem fcs_calc_rem (ovf : Nat → Int) {key packet : List Int} (hk : IsBits key)
    (hp : IsBits packet) (hkl : key.length ≤ 31) (hpl : packet.length ≤ 31)
    (hnz : natVal key ≠ 0) :
    ∃ Q R : Nat, fcs_calc ovf key packet = some (R : Int) ∧
      natVal packet = clmul Q (natVal key) ^^^ R ∧ R < 2 ^ (natVal key).log2 := by
  have hk1 : 1 ≤ key.length := by
    cases key with
    | nil => exact absurd rfl hnz
    | cons d ds => simp
  obtain ⟨R, e1, _, e3⟩ := fcs_calc_eq ovf key hp hpl hk1 hkl
  obtain ⟨Q, R1, f1, f2, f3, _⟩ := fcs_loop_spec (natVal key) hnz (natVal packet)
  rw [dec_eq_natVal ovf hk hkl, f1] at e1
  have hR : R1 = R := by exact_mod_cast e1
  subst hR
  have hlog : (natVal key).log2 ≤ key.length - 1 := by
    have := (Nat.log2_lt hnz).mpr (natVal_lt hk)
    omega
  have hlt : R1 < 2 ^ (key.length - 1) :=
    lt_of_lt_of_le f3 (Nat.pow_le_pow_right (by decide) hlog)
  rw [Nat.mod_eq_of_lt hlt] at e3
  exact ⟨Q, R1, e3, f2, f3⟩

/-- A packet that is a carry-less multiple of a non-zero key has remainder 0. -/
theorem fcs_calc_multiple (ovf : Nat → Int) {key packet : List Int} (hk : IsBits key)
    (hp : IsBits packet) (hkl : key.length ≤ 31) (hpl : packet.length ≤ 31)
    (hnz : natVal key ≠ 0) (Q : Nat) (hQ : natVal packet = clmul Q (natVal key)) :
    fcs_calc ovf key packet = some 0 := by
  obtain ⟨Q1, R, e1, e2, e3⟩ := fcs_calc_rem ovf hk hp hkl hpl hnz
  have h0 : (0 : Nat) < 2 ^ (natVal key).log2 := by positivity
  have := (clmul_div_unique hnz e3 h0 (by rw [← e2, Nat.xor_zero, hQ])).2
  subst this
  simpa using e1

/-- For an all-zero key the loop is skipped and only the final modulus acts. -/
theorem fcs_calc_zero_key (ovf : Nat → Int) {key packet : List Int} (hp : IsBits packet)
    (hpl : packet.length ≤ 31) (hk1 : 1 ≤ key.length) (hk2 : key.length ≤ 31)
    (hz : dec ovf key = 0) :
    fcs_calc ovf key packet = some ((natVal packet % 2 ^ (key.length - 1) : Nat) : Int) := by
  obtain ⟨R, e1, _, e3⟩ := fcs_calc_eq ovf key hp hpl hk1 hk2
  rw [hz, fcs_loop_zero_divisor] at e1
  have : natVal packet = R := by exact_mod_cast e1
  rw [this]; exact e3

/-- The result of `fcs_calc` is fixed by any carry-less division equation. -/
theorem fcs_calc_of_division (ovf : Nat → Int) {key packet : List Int} (hk : IsBits key)
    (hp : IsBits packet) (hkl : key.length ≤ 31) (hpl : packet.length ≤ 31)
    (hnz : natVal key ≠ 0) (Q R : Nat) (hQ : natVal packet = clmul Q (natVal key) ^^^ R)
    (hR : R < 2 ^ (natVal key).log2) : fcs_calc ovf key packet = some (R : Int) := by
  obtain ⟨Q1, R1, e1, e2, e3⟩ := fcs_calc_rem ovf hk hp hkl hpl hnz
  have := (clmul_div_unique hnz e3 hR (e2.symm.trans hQ)).2
  rw [e1, this]

/-! ## Frames: appending zeros and writing the FCS -/

theorem natVal_append {a b : List Int} (ha : IsBits a) (hb : IsBits b) :
    natVal (a ++ b) = natVal a * 2 ^ b.length + natVal b := by
  have h := beVal_append a b
  rw [← natVal_cast ha, ← natVal_cast hb, ← natVal_cast (isBits_append.mpr ⟨ha, hb⟩)] at h
  exact_mod_cast h

theorem natVal_replicate_zero (n : Nat) : natVal (List.replicate n 0) = 0 := by
  simp [natVal, beVal_replicate_zero]

theorem toBits_length (n : Nat) (v : Int) : (toBits n v).length = n := by
  induction n generalizing v with
  | zero => rfl
  | succ n ih => simp [toBits, ih]

theorem isBits_toBits (n : Nat) (v : Int) : IsBits (toBits n v) := by
  induction n generalizing v with
  | zero => intro d hd; simp [toBits] at hd
  | succ n ih =>
    rw [toBits, isBits_append]
    refine ⟨ih _, ?_⟩
    intro d hd
    simp only [List.mem_singleton] at hd
    subst hd
    omega

theorem natVal_toBits (n m : Nat) : natVal (toBits n (m : Int)) = m % 2 ^ n := by
  induction n generalizing m with
  | zero => simp [toBits, natVal, beVal, Nat.mod_one]
  | succ n ih =>
    have h1 : ((m : Int) / 2) = ((m / 2 : Nat) : Int) := by norm_cast
    have h2 : IsBits [(m : Int) % 2] := by
      intro d hd
      simp only [List.mem_singleton] at hd
      subst hd
      omega
    rw [toBits, natVal_append (isBits_toBits _ _) h2, h1, ih]
    have h3 : natVal [(m : Int) % 2] = m % 2 := by
      simp only [natVal, beVal, List.length_nil, pow_zero, mul_one, add_zero]
      omega
    rw [h3, pow_succ, Nat.mul_comm (2 ^ n) 2, Nat.mod_mul (x := m) (a := 2) (b := 2 ^ n)]
    simp only [List.length_singleton, pow_one]
    ring

theorem toBits_zero (n : Nat) : toBits n 0 = List.replicate n 0 := by
  induction n with
  | zero => rfl
  | succ n ih =>
    rw [toBits, List.replicate_succ']
    simp [ih]

/-- The FCS loop overwrites exactly the `n` digits after the data region with
the binary expansion of a non-negative `fcs`. -/
theorem writeFcs_append (data : List Int) (n : Nat) (fcs : Int) (h0 : 0 ≤ fcs)
    (z tail : List Int) (hz : z.length = n) :
    writeFcs data.length n (data ++ z ++ tail) fcs = data ++ toBits n fcs ++ tail := by
  induction n generalizing fcs z tail with
  | zero =>
    have : z = [] := List.length_eq_zero.mp hz
    subst this
    simp [writeFcs, toBits]
  | succ n ih =>
    obtain ⟨z1, x, rfl⟩ : ∃ z1 x, z = z1 ++ [x] := by
      rcases List.eq_nil_or_concat z with h | ⟨z1, x, h⟩
      · subst h; simp at hz
      · exact ⟨z1, x, by simpa using h⟩
    have hz1 : z1.length = n := by simpa using hz
    have hset : (data ++ (z1 ++ [x]) ++ tail).set (data.length + n) (Int.tmod fcs 2)
        = data ++ z1 ++ (fcs % 2 :: tail) := by
      rw [Int.tmod_eq_emod h0 (by decide)]
      have e : data ++ (z1 ++ [x]) ++ tail = (data ++ z1) ++ (x :: tail) := by simp
      rw [e, List.set_append_right _ _ (by simp [hz1])]
      simp [hz1]
    rw [writeFcs, if_pos h0, hset, Int.tdiv_eq_ediv h0 (by decide),
      ih (fcs / 2) (by omega) z1 (fcs % 2 :: tail) hz1, toBits]
    simp

theorem mul_two_pow_add_eq_xor {a b i : Nat} (hb : b < 2 ^ i) :
    a * 2 ^ i + b = (a * 2 ^ i) ^^^ b := by
  apply Nat.eq_of_testBit_eq
  intro j
  rw [Nat.mul_comm a, Nat.testBit_mul_pow_two_add a hb, Nat.testBit_xor,
    Nat.testBit_mul_pow_two]
  by_cases hj : j < i
  · have : ¬ j ≥ i := by omega
    simp [hj, this]
  · have h1 : j ≥ i := by omega
    simp [hj, h1, testBit_of_lt_two_pow hb h1]

/-- Round trip on the level of digit sequences: the frame made of the data and
the digits of its FCS has remainder 0.  The key may have value 0. -/
theorem fcs_round_trip (ovf : Nat → Int) {key data : List Int} (hk : IsBits key)
    (hd : IsBits data) (hk1 : 1 ≤ key.length) (hk2 : key.length ≤ 31)
    (hlen : data.length + key.length - 1 ≤ 31) :
    ∃ fcs : Nat, fcs < 2 ^ (key.length - 1) ∧
      fcs_calc ovf key (data ++ List.replicate (key.length - 1) 0) = some (fcs : Int) ∧
      fcs_calc ovf key (data ++ toBits (key.length - 1) (fcs : Int)) = some 0 := by
  have hz := isBits_replicate_zero (key.length - 1)
  have hf : IsBits (data ++ List.replicate (key.length - 1) 0) := isBits_append.mpr ⟨hd, hz⟩
  have hfl : (data ++ List.replicate (key.length - 1) 0).length ≤ 31 := by
    simp only [List.length_append, List.length_replicate]; omega
  have hF : natVal (data ++ List.replicate (key.length - 1) 0)
      = natVal data * 2 ^ (key.length - 1) := by
    rw [natVal_append hd hz, natVal_replicate_zero]; simp
  by_cases hp : natVal key = 0
  · have hz0 : dec ovf key = 0 := by rw [dec_eq_natVal ovf hk hk2, hp]; rfl
    refine ⟨0, by positivity, ?_, ?_⟩
    · rw [fcs_calc_zero_key ovf hf hfl hk1 hk2 hz0, hF]; simp
    · have e : toBits (key.length - 1) ((0 : Nat) : Int) = List.replicate (key.length - 1) 0 :=
        toBits_zero _
      rw [e, fcs_calc_zero_key ovf hf hfl hk1 hk2 hz0, hF]; simp
  · obtain ⟨Q, R, e1, e2, e3⟩ := fcs_calc_rem ovf hk hf hk2 hfl hp
    have hlog : (natVal key).log2 ≤ key.length - 1 := by
      have := (Nat.log2_lt hp).mpr (natVal_lt hk)
      omega
    have hR : R < 2 ^ (key.length - 1) :=
      lt_of_lt_of_le e3 (Nat.pow_le_pow_right (by decide) hlog)
    refine ⟨R, hR, e1, ?_⟩
    have hb := isBits_toBits (key.length - 1) (R : Int)
    have hfl2 : (data ++ toBits (key.length - 1) (R : Int)).length ≤ 31 := by
      simp only [List.length_append, toBits_length]; omega
    apply fcs_calc_multiple ovf hk (isBits_append.mpr ⟨hd, hb⟩) hk2 hfl2 hp Q
    rw [natVal_append hd hb, toBits_length, natVal_toBits, Nat.mod_eq_of_lt hR,
      mul_two_pow_add_eq_xor hR, ← hF, e2, Nat.xor_assoc, Nat.xor_self, Nat.xor_zero]

/-! ## Claims on `fcs_calc` -/

/-- C1. Round trip: for a key of length at least 2 with binary digits and
non-zero value and a non-empty data sequence with
`data_len + key_len - 1 ≤ 31`, `fcs_calc` returns a value `fcs` on the frame
"data followed by `key_len - 1` zeros", and after the FCS-writing loop of `crc`
has overwritten the last `key_len - 1` digits with `fcs`, `fcs_calc` returns 0
on the resulting frame. -/
theorem crc_round_trip (ovf : Nat → Int) (key data : List Int)
    (hk : IsBits key) (hkl : 2 ≤ key.length) (_hnz : dec ovf key ≠ 0)
    (hd : IsBits data) (hdl : 1 ≤ data.length)
    (hlen : data.length + key.length - 1 ≤ 31) :
    ∃ fcs : Int,
      fcs_calc ovf key (data ++ List.replicate (key.length - 1) 0) = some fcs ∧
      fcs_calc ovf key
        (writeFcs data.length (key.length - 1)
          (data ++ List.replicate (key.length - 1) 0) fcs) = some 0 := by
  obtain ⟨fcs, _, e1, e2⟩ := fcs_round_trip ovf hk hd (by omega) (by omega) hlen
  refine ⟨(fcs : Int), e1, ?_⟩
  have := writeFcs_append data (key.length - 1) (fcs : Int) (by positivity)
    (List.replicate (key.length - 1) 0) [] (by simp)
  simp only [List.append_nil] at this
  rw [this]; exact e2

/-- Witness of C1: the key `110101` and the data `1010001101`. -/
theorem crc_round_trip_witness :
    ∃ fcs : Int,
      fcs_calc cvt_x86 [1, 1, 0, 1, 0, 1]
        ([1, 0, 1, 0, 0, 0, 1, 1, 0, 1] ++ List.replicate ([1, 1, 0, 1, 0, 1].length - 1) 0)
          = some fcs ∧
      fcs_calc cvt_x86 [1, 1, 0, 1, 0, 1]
        (writeFcs [1, 0, 1, 0, 0, 0, 1, 1, 0, 1].length ([1, 1, 0, 1, 0, 1].length - 1)
          ([1, 0, 1, 0, 0, 0, 1, 1, 0, 1] ++
            List.replicate ([1, 1, 0, 1, 0, 1].length - 1) 0) fcs) = some 0 :=
  crc_round_trip cvt_x86 [1, 1, 0, 1, 0, 1] [1, 0, 1, 0, 0, 0, 1, 1, 0, 1]
    (by decide) (by decide) (by decide) (by decide) (by decide) (by decide)

/-- C3. For a key `P` of length at least 2 (binary digits, non-zero value)
and a packet `D` of at most 31 binary digits whose value is a carry-less
multiple of the value of `P`, the loop of `fcs_calc` ends with `r = 0`;
`fcs_calc` returns 0 whenever the modulus `(int) pow(2, key_len - 1)` of its
last line is not 0, in particular for every key of at most 31 digits, and in
no case returns a value other than 0. -/
theorem fcs_calc_of_multiple (ovf : Nat → Int) (key packet : List Int)
    (_hk : IsBits key) (hk2 : 2 ≤ key.length)
    (_hnz : dec ovf key ≠ 0) (_hp : IsBits packet) (_hpl : packet.length ≤ 31)
    (hmul : ∃ Q : Nat, dec ovf packet = ((clmul Q (dec ovf key).toNat : Nat) : Int)) :
    fcs_loop (dec ovf packet) (dec ovf key) = 0 ∧
      (powInt ovf ((key.length : Int) - 1) ≠ 0 → fcs_calc ovf key packet = some 0) ∧
      (key.length ≤ 31 → fcs_calc ovf key packet = some 0) ∧
      (∀ v : Int, fcs_calc ovf key packet = some v → v = 0) := by
  obtain ⟨Q, hQ⟩ := hmul
  have hloop : fcs_loop (dec ovf packet) (dec ovf key) = 0 := by
    by_cases hpos : 0 < dec ovf key
    · have hcast : ((dec ovf key).toNat : Int) = dec ovf key :=
        Int.toNat_of_nonneg (le_of_lt hpos)
      have h := @fcs_loop_unique (dec ovf key).toNat (clmul Q (dec ovf key).toNat) Q 0
        (by omega) (by rw [Nat.xor_zero]) (by positivity)
      rw [hcast, ← hQ] at h
      exact_mod_cast h
    · have h0 : (dec ovf key).toNat = 0 := by omega
      rw [h0, clmul_zero_right] at hQ
      rw [hQ]
      exact fcs_loop_zero _
  have hval : fcs_calc ovf key packet
      = if powInt ovf ((key.length : Int) - 1) = 0 then none else some 0 := by
    unfold fcs_calc
    simp only [hloop, Int.zero_tmod]
  have hsome : powInt ovf ((key.length : Int) - 1) ≠ 0 → fcs_calc ovf key packet = some 0 := by
    intro hm
    rw [hval, if_neg hm]
  refine ⟨hloop, hsome, ?_, ?_⟩
  · intro hkl
    apply hsome
    rw [powInt_pred ovf (by omega) hkl]
    positivity
  · intro v hv
    rw [hval] at hv
    split at hv
    · exact absurd hv (by simp)
    · exact (Option.some.inj hv).symm

set_option maxRecDepth 20000 in
/-- Witness of C3: the packet `10001011` is the carry-less product of `111`
and the key `110101`; and the packet `101` is the carry-less square of the
value 3 that `dec` returns, with the out-of-range conversion of x86-64, for
the 33-digit key `11` `0...0` `11`. -/
theorem fcs_calc_of_multiple_witness :
    fcs_calc cvt_x86 [1, 1, 0, 1, 0, 1] [1, 0, 0, 0, 1, 0, 1, 1] = some 0 ∧
      fcs_calc cvt_x86 (1 :: 1 :: List.replicate 29 0 ++ [1, 1]) [1, 0, 1] = some 0 :=
  ⟨(fcs_calc_of_multiple cvt_x86 [1, 1, 0, 1, 0, 1] [1, 0, 0, 0, 1, 0, 1, 1]
      (by decide) (by decide) (by decide) (by decide) (by decide)
      ⟨7, by decide⟩).2.2.1 (by decide),
    (fcs_calc_of_multiple cvt_x86 (1 :: 1 :: List.replicate 29 0 ++ [1, 1]) [1, 0, 1]
      (by decide) (by decide) (by decide) (by decide) (by decide)
      ⟨3, by decide⟩).2.1 (by decide)⟩

/-! ## Flipping one digit -/

theorem natVal_cons {d : Int} {ds : List Int} (h : IsBits (d :: ds)) :
    natVal (d :: ds) = d.toNat * 2 ^ ds.length + natVal ds := by
  have h1 := isBits_cons.mp h
  have hd : IsBits [d] := by
    intro x hx
    simp only [List.mem_singleton] at hx
    subst hx; exact h1.1
  have := natVal_append (a := [d]) (b := ds) hd h1.2
  simp only [List.singleton_append] at this
  rw [this]
  simp [natVal, beVal]

theorem isBits_set {num : List Int} (h : IsBits num) (i : Nat) {v : Int}
    (hv : v = 0 ∨ v = 1) : IsBits (num.set i v) := by
  intro d hd
  rcases List.mem_or_eq_of_mem_set hd with h1 | h1
  · exact h d h1
  · subst h1; exact hv

/-- Complementing the digit at index `i` toggles the bit of weight
`2 ^ (len - 1 - i)` of the value. -/
theorem natVal_flip {num : List Int} (h : IsBits num) {i : Nat} (hi : i < num.length) :
    natVal (num.set i (if num.getD i 0 ≠ 0 then 0 else 1))
      = natVal num ^^^ 2 ^ (num.length - 1 - i) := by
  induction num generalizing i with
  | nil => simp at hi
  | cons d ds ih =>
    have h1 := isBits_cons.mp h
    have hB := natVal_lt h1.2
    cases i with
    | zero =>
      simp only [List.set_cons_zero, List.getD_cons_zero, List.length_cons,
        Nat.add_sub_cancel, Nat.sub_zero]
      rcases h1.1 with e | e
      · subst e
        have hb : IsBits ((1 : Int) :: ds) := isBits_cons.mpr ⟨Or.inr rfl, h1.2⟩
        rw [if_neg (by simp), natVal_cons hb, natVal_cons h]
        simp only [Int.toNat_one, Int.toNat_zero, one_mul, zero_mul, zero_add]
        have key := mul_two_pow_add_eq_xor (a := 1) hB
        simp only [one_mul] at key
        rw [key, Nat.xor_comm]
      · subst e
        have hb : IsBits ((0 : Int) :: ds) := isBits_cons.mpr ⟨Or.inl rfl, h1.2⟩
        rw [if_pos (by simp), natVal_cons hb, natVal_cons h]
        simp only [Int.toNat_one, Int.toNat_zero, one_mul, zero_mul, zero_add]
        have key := mul_two_pow_add_eq_xor (a := 1) hB
        simp only [one_mul] at key
        rw [key, Nat.xor_comm (2 ^ ds.length), Nat.xor_cancel_right]
    | succ i =>
      have hi2 : i < ds.length := by simpa using hi
      have hflip : (if ds.getD i 0 ≠ 0 then (0 : Int) else 1) = 0 ∨
          (if ds.getD i 0 ≠ 0 then (0 : Int) else 1) = 1 := by
        split
        · exact Or.inl rfl
        · exact Or.inr rfl
      have hs := isBits_set h1.2 i hflip
      have hb : IsBits (d :: ds.set i (if ds.getD i 0 ≠ 0 then 0 else 1)) :=
        isBits_cons.mpr ⟨h1.1, hs⟩
      have hB2 := natVal_lt hs
      simp only [List.length_set] at hB2
      simp only [List.set_cons_succ, List.getD_cons_succ, List.length_cons]
      rw [natVal_cons hb, natVal_cons h, List.length_set,
        mul_two_pow_add_eq_xor hB2, mul_two_pow_add_eq_xor hB, ih h1.2 hi2, Nat.xor_assoc]
      congr 3
      omega

theorem clmul_ne_two_pow (a p j : Nat) (hodd : p.testBit 0 = true) (hlog : 1 ≤ p.log2) :
    clmul a p ≠ 2 ^ j := by
  intro h
  have hp : p ≠ 0 := by
    intro h0; subst h0; simp at hodd
  by_cases ha : a = 0
  · subst ha
    rw [clmul_zero_left] at h
    exact absurd h.symm (by positivity)
  · have hex : ∃ i, a.testBit i = true := Nat.ne_zero_implies_bit_true ha
    have hmin : ∀ i, i < Nat.find hex → a.testBit i = false := by
      intro i hi
      have := Nat.find_min hex hi
      simpa using this
    have hset : a.testBit (Nat.find hex) = true := Nat.find_spec hex
    have hle : Nat.find hex ≤ a.log2 := (Nat.le_log2 ha).mpr (Nat.testBit_implies_ge hset)
    have hlow : (clmul a p).testBit (Nat.find hex) = true := by
      rw [clmul_eq_clmulN p (Nat.lt_log2_self (n := a)),
        clmulN_testBit_low _ _ _ _ hmin, hset, hodd]
      have : Nat.find hex < a.log2 + 1 := by omega
      simp [this]
    have htop := clmul_testBit_top a p ha hp
    rw [h, Nat.testBit_two_pow] at hlow htop
    simp only [decide_eq_true_eq] at hlow htop
    omega

theorem natVal_of_head {key : List Int} (hk : IsBits key) (h2 : 2 ≤ key.length)
    (hh : key.head? = some 1) : 1 ≤ (natVal key).log2 := by
  cases key with
  | nil => simp at hh
  | cons d ds =>
    simp only [List.head?_cons, Option.some.injEq] at hh
    subst hh
    simp only [List.length_cons] at h2
    have hv := natVal_cons hk
    simp only [Int.toNat_one, one_mul] at hv
    have hge : 2 ^ 1 ≤ natVal ((1 : Int) :: ds) := by
      have : 2 ^ 1 ≤ 2 ^ ds.length := Nat.pow_le_pow_right (by decide) (by omega)
      omega
    exact (Nat.le_log2 (by omega)).mpr hge

theorem natVal_of_getLast {key : List Int} (hk : IsBits key)
    (hl : key.getLast? = some 1) : (natVal key).testBit 0 = true := by
  have e : key.dropLast ++ [1] = key :=
    List.dropLast_append_getLast? 1 (by rw [hl]; exact rfl)
  have hk2 : IsBits (key.dropLast ++ [1]) := by rw [e]; exact hk
  have hv := natVal_append (isBits_append.mp hk2).1 (isBits_append.mp hk2).2
  rw [e] at hv
  rw [hv]
  simp [natVal, beVal, Nat.add_mod]

set_option maxRecDepth 20000 in
/-- C4 as stated fails for a key of more than 31 digits.  The 33-digit key
`11` `0...0` `1` has first and last digit 1; its two leading digits are
multiplied by out-of-range conversions, which x86-64 evaluates to `INT_MIN`,
their sum wraps to 0 and `dec(key) = 1`.  Every value is a multiple of 1: the
frame `00110` has remainder 0, and so has the frame `00010` with digit 2
complemented; `crc` reports no error. -/
theorem single_bit_error_missed_long_key :
    2 ≤ ((1 : Int) :: 1 :: List.replicate 30 0 ++ [1]).length ∧
      ((1 : Int) :: 1 :: List.replicate 30 0 ++ [1]).head? = some 1 ∧
      ((1 : Int) :: 1 :: List.replicate 30 0 ++ [1]).getLast? = some 1 ∧
      IsBits (1 :: 1 :: List.replicate 30 0 ++ [1]) ∧
      dec cvt_x86 (1 :: 1 :: List.replicate 30 0 ++ [1]) = 1 ∧
      IsBits [0, 0, 1, 1, 0] ∧ ([0, 0, 1, 1, 0] : List Int).length ≤ 31 ∧
      fcs_calc cvt_x86 (1 :: 1 :: List.replicate 30 0 ++ [1]) [0, 0, 1, 1, 0] = some 0 ∧
      2 < ([0, 0, 1, 1, 0] : List Int).length ∧
      ([0, 0, 1, 1, 0] : List Int).set 2
          (if ([0, 0, 1, 1, 0] : List Int).getD 2 0 ≠ 0 then 0 else 1) = [0, 0, 0, 1, 0] ∧
      fcs_calc cvt_x86 (1 :: 1 :: List.replicate 30 0 ++ [1])
        (([0, 0, 1, 1, 0] : List Int).set 2
          (if ([0, 0, 1, 1, 0] : List Int).getD 2 0 ≠ 0 then 0 else 1)) = some 0 ∧
      errorFlag cvt_x86 (1 :: 1 :: List.replicate 30 0 ++ [1])
        (([0, 0, 1, 1, 0] : List Int).set 2
          (if ([0, 0, 1, 1, 0] : List Int).getD 2 0 ≠ 0 then 0 else 1)) = some 0 := by
  have hkv : dec cvt_x86 (1 :: 1 :: List.replicate 30 0 ++ [1]) = 1 := by decide
  have hset : ([0, 0, 1, 1, 0] : List Int).set 2
      (if ([0, 0, 1, 1, 0] : List Int).getD 2 0 ≠ 0 then 0 else 1) = [0, 0, 0, 1, 0] := by
    decide
  have h6 : fcs_loop 6 1 = 0 := by
    have h := @fcs_loop_unique 1 6 6 0 (by decide) (by decide) (by positivity)
    exact_mod_cast h
  have h2 : fcs_loop 2 1 = 0 := by
    have h := @fcs_loop_unique 1 2 2 0 (by decide) (by decide) (by positivity)
    exact_mod_cast h
  have hf1 : fcs_calc cvt_x86 (1 :: 1 :: List.replicate 30 0 ++ [1]) [0, 0, 1, 1, 0]
      = some 0 := by
    unfold fcs_calc
    simp only [hkv, show dec cvt_x86 [0, 0, 1, 1, 0] = 6 from by decide, h6]
    decide
  have hf2 : fcs_calc cvt_x86 (1 :: 1 :: List.replicate 30 0 ++ [1]) [0, 0, 0, 1, 0]
      = some 0 := by
    unfold fcs_calc
    simp only [hkv, show dec cvt_x86 [0, 0, 0, 1, 0] = 2 from by decide, h2]
    decide
  refine ⟨by decide, by decide, by decide, by decide, hkv, by decide, by decide, hf1,
    by decide, hset, ?_, ?_⟩
  · rw [hset]; exact hf2
  · rw [hset]
    simp only [errorFlag, hf2]
    rfl

/-- C4, amended. Single-bit error detection for keys of the supported width:
for a key of length at least 2 and at most 31 whose first and last digits are
1, a frame of at most 31 binary digits with `fcs_calc(key, frame) = 0` and a
position `i` of the frame, the frame with digit `i` complemented has a
non-zero remainder, so the value computed by `crc` from it is 1 (error
detected). -/
theorem single_bit_error_detected (ovf : Nat → Int) (key frame : List Int) (i : Nat)
    (hk : IsBits key) (hk2 : 2 ≤ key.length) (hkl : key.length ≤ 31)
    (hfirst : key.head? = some 1) (hlast : key.getLast? = some 1)
    (hf : IsBits frame) (hfl : frame.length ≤ 31)
    (hzero : fcs_calc ovf key frame = some 0) (hi : i < frame.length) :
    (∃ v : Int, fcs_calc ovf key (frame.set i (if frame.getD i 0 ≠ 0 then 0 else 1))
        = some v ∧ v ≠ 0) ∧
      errorFlag ovf key (frame.set i (if frame.getD i 0 ≠ 0 then 0 else 1)) = some 1 := by
  have hlog := natVal_of_head hk hk2 hfirst
  have hodd := natVal_of_getLast hk hlast
  have hnz : natVal key ≠ 0 := by
    intro h0; rw [h0] at hodd; simp at hodd
  have hflip : (if frame.getD i 0 ≠ 0 then (0 : Int) else 1) = 0 ∨
      (if frame.getD i 0 ≠ 0 then (0 : Int) else 1) = 1 := by
    split
    · exact Or.inl rfl
    · exact Or.inr rfl
  have hf2 := isBits_set hf i hflip
  have hfl2 : (frame.set i (if frame.getD i 0 ≠ 0 then 0 else 1)).length ≤ 31 := by
    rw [List.length_set]; exact hfl
  obtain ⟨Q, R, e1, e2, e3⟩ := fcs_calc_rem ovf hk hf hkl hfl hnz
  obtain ⟨Q2, R2, f1, f2, f3⟩ := fcs_calc_rem ovf hk hf2 hkl hfl2 hnz
  rw [hzero] at e1
  have hR : R = 0 := by
    have := Option.some.inj e1
    exact_mod_cast this.symm
  subst hR
  have hR2 : R2 ≠ 0 := by
    intro h0
    subst h0
    rw [natVal_flip hf hi, e2] at f2
    simp only [Nat.xor_zero] at f2
    have : clmul (Q ^^^ Q2) (natVal key) = 2 ^ (frame.length - 1 - i) := by
      rw [clmul_xor_left, ← f2, ← Nat.xor_assoc, Nat.xor_self, Nat.zero_xor]
    exact clmul_ne_two_pow _ _ _ hodd hlog this
  have hv : (R2 : Int) ≠ 0 := by exact_mod_cast hR2
  refine ⟨⟨(R2 : Int), f1, hv⟩, ?_⟩
  simp only [errorFlag, f1]
  rw [if_pos hv]

/-- Witness of the amended C4: the key `11`, the frame `00110` and the
position 2. -/
theorem single_bit_error_detected_witness :
    (∃ v : Int, fcs_calc cvt_x86 [1, 1]
        (([0, 0, 1, 1, 0] : List Int).set 2
          (if ([0, 0, 1, 1, 0] : List Int).getD 2 0 ≠ 0 then 0 else 1)) = some v ∧ v ≠ 0) ∧
      errorFlag cvt_x86 [1, 1]
        (([0, 0, 1, 1, 0] : List Int).set 2
          (if ([0, 0, 1, 1, 0] : List Int).getD 2 0 ≠ 0 then 0 else 1)) = some 1 :=
  single_bit_error_detected cvt_x86 [1, 1] [0, 0, 1, 1, 0] 2
    (by decide) (by decide) (by decide) (by decide) (by decide) (by decide) (by decide)
    (@fcs_calc_multiple cvt_x86 [1, 1] [0, 0, 1, 1, 0]
      (by decide) (by decide) (by decide) (by decide) (by decide) 2 (by decide))
    (by decide)

/-! ## The channel and one call of `crc` -/

theorem roundHalfEven_floor_le (q : ℚ) : ⌊q⌋ ≤ roundHalfEven q := by
  unfold roundHalfEven
  split_ifs <;> omega

theorem roundHalfEven_intCast (n : Int) : roundHalfEven (n : ℚ) = n := by
  unfold roundHalfEven
  simp

theorem toFloat_zero : toFloat 0 = 0 := by
  unfold toFloat
  simp

theorem toFloat_pos {x : ℚ} (h : 0 < x) : 0 < toFloat x := by
  unfold toFloat
  rw [if_neg (not_le.mpr h)]
  have hp : (0 : ℚ) < 2 ^ (Int.log 2 x - 23) := by positivity
  have h1 : ((2 : Nat) : ℚ) ^ Int.log 2 x ≤ x := Int.zpow_log_le_self (by decide) h
  have h2 : (2 : ℚ) ^ (23 : Int) ≤ x / 2 ^ (Int.log 2 x - 23) := by
    rw [le_div_iff₀ hp, ← zpow_add₀ (by norm_num : (2 : ℚ) ≠ 0)]
    have : (23 : Int) + (Int.log 2 x - 23) = Int.log 2 x := by ring
    rw [this]
    exact_mod_cast h1
  have h3 : (8388608 : Int) ≤ ⌊x / 2 ^ (Int.log 2 x - 23)⌋ := by
    apply Int.le_floor.mpr
    have : ((8388608 : Int) : ℚ) = (2 : ℚ) ^ (23 : Int) := by norm_num
    rw [this]
    exact h2
  have h4 := roundHalfEven_floor_le (x / 2 ^ (Int.log 2 x - 23))
  have h5 : (0 : ℚ) < (roundHalfEven (x / 2 ^ (Int.log 2 x - 23)) : ℚ) := by
    exact_mod_cast (by omega : (0 : Int) < roundHalfEven (x / 2 ^ (Int.log 2 x - 23)))
  exact mul_pos h5 hp

theorem toFloat_nonneg (x : ℚ) : 0 ≤ toFloat x := by
  by_cases h : 0 < x
  · exact le_of_lt (toFloat_pos h)
  · unfold toFloat
    rw [if_pos (not_lt.mp h)]

theorem toFloat_one : toFloat 1 = 1 := by
  unfold toFloat
  rw [if_neg (by norm_num), Int.log_one_right]
  have : (1 : ℚ) / 2 ^ ((0 : Int) - 23) = ((8388608 : Int) : ℚ) := by norm_num
  rw [this, roundHalfEven_intCast]
  norm_num

/-- With a bit error rate of 0 no draw passes the test of line 94. -/
theorem not_belowBer_zero (RAND_MAX draw : Nat) : ¬ belowBer RAND_MAX 0 draw :=
  fun h => absurd h.2 (not_lt.mpr (toFloat_nonneg _))

/-- The draw 0 passes the test for every positive bit error rate. -/
theorem belowBer_zero_draw (RAND_MAX : Nat) (hR : 0 < RAND_MAX) (ber : ℚ) (h0 : 0 < ber) :
    belowBer RAND_MAX ber 0 := by
  refine ⟨Nat.pos_iff_ne_zero.mp hR, ?_⟩
  rw [Nat.cast_zero, toFloat_zero, zero_div, toFloat_zero]
  exact h0

/-- The draw `RAND_MAX` fails the test for every bit error rate up to 1. -/
theorem not_belowBer_max (RAND_MAX : Nat) (hR : 0 < RAND_MAX) (ber : ℚ) (h1 : ber ≤ 1) :
    ¬ belowBer RAND_MAX ber RAND_MAX := by
  intro h
  have hpos : (0 : ℚ) < toFloat (RAND_MAX : ℚ) := toFloat_pos (by exact_mod_cast hR)
  have := h.2
  rw [div_self (ne_of_gt hpos), toFloat_one] at this
  exact absurd this (not_lt.mpr h1)

/-- The loop of lines 76-77 writes the digits `rnd (pos + i) % 2` and leaves
the cursor `data_len` draws further. -/
theorem fillData_eq (rnd : Nat → Nat) (pos data_len : Nat) :
    fillData rnd pos data_len
      = ((List.range data_len).map (fun i => ((rnd (pos + i) % 2 : Nat) : Int)),
          pos + data_len) := by
  induction data_len generalizing pos with
  | zero => rfl
  | succ n ih =>
    rw [fillData]
    simp only [rand, ih (pos + 1)]
    rw [List.range_succ_eq_map, List.map_cons, List.map_map]
    refine Prod.ext ?_ (by simp only; omega)
    simp only [Nat.add_zero, List.cons.injEq, true_and]
    apply List.map_congr_left
    intro i _
    simp only [Function.comp, Nat.succ_eq_add_one]
    rw [show pos + (i + 1) = pos + 1 + i from by omega]

theorem fillData_pos (rnd : Nat → Nat) (pos data_len : Nat) :
    (fillData rnd pos data_len).2 = pos + data_len := by
  rw [fillData_eq]

theorem isBits_fillData (rnd : Nat → Nat) (pos data_len : Nat) :
    IsBits (fillData rnd pos data_len).1 := by
  intro d hd
  rw [fillData_eq] at hd
  simp only [List.mem_map, List.mem_range] at hd
  obtain ⟨i, _, rfl⟩ := hd
  omega

theorem fillData_length (rnd : Nat → Nat) (pos data_len : Nat) :
    (fillData rnd pos data_len).1.length = data_len := by
  simp [fillData_eq]

theorem initSender_eq (rnd : Nat → Nat) (pos data_len key_len : Nat) (h : 1 ≤ key_len) :
    initSender rnd pos data_len key_len
      = (fillData rnd pos data_len).1 ++ List.replicate (key_len - 1) 0 := by
  unfold initSender
  congr 2
  omega

theorem channel_length (RAND_MAX : Nat) (rnd : Nat → Nat) (ber : ℚ) (s : List Int)
    (pos : Nat) : (channel RAND_MAX rnd ber s pos).1.length = s.length := by
  induction s generalizing pos with
  | nil => rfl
  | cons d ds ih =>
    simp only [channel, rand]
    split <;> simp [ih]

theorem channel_isBits (RAND_MAX : Nat) (rnd : Nat → Nat) (ber : ℚ) (s : List Int)
    (pos : Nat) (h : IsBits s) : IsBits (channel RAND_MAX rnd ber s pos).1 := by
  induction s generalizing pos with
  | nil => exact h
  | cons d ds ih =>
    have h1 := isBits_cons.mp h
    simp only [channel, rand]
    split
    · refine isBits_cons.mpr ⟨?_, ih _ h1.2⟩
      split
      · exact Or.inl rfl
      · exact Or.inr rfl
    · exact isBits_cons.mpr ⟨h1.1, ih _ h1.2⟩

/-- A receiver array produced without any flip is a copy of the sender. -/
theorem channel_flag_zero (RAND_MAX : Nat) (rnd : Nat → Nat) (ber : ℚ) (s : List Int)
    (pos : Nat) (h : (channel RAND_MAX rnd ber s pos).2.1 = 0) :
    (channel RAND_MAX rnd ber s pos).1 = s := by
  induction s generalizing pos with
  | nil => rfl
  | cons d ds ih =>
    simp only [channel, rand] at h ⊢
    split at h
    · simp at h
    · rename_i hc
      rw [if_neg hc]
      simp only at h ⊢
      rw [ih _ h]

/-- The channel loop leaves the cursor one draw further for every digit. -/
theorem channel_pos (RAND_MAX : Nat) (rnd : Nat → Nat) (ber : ℚ) (s : List Int)
    (pos : Nat) : (channel RAND_MAX rnd ber s pos).2.2 = pos + s.length := by
  induction s generalizing pos with
  | nil => rfl
  | cons d ds ih =>
    simp only [channel, rand]
    split <;> simp only [ih, List.length_cons] <;> omega

/-- With a bit error rate of 0 no draw is below the rate. -/
theorem channel_ber_zero (RAND_MAX : Nat) (rnd : Nat → Nat) (s : List Int) (pos : Nat) :
    channel RAND_MAX rnd 0 s pos = (s, 0, pos + s.length) := by
  induction s generalizing pos with
  | nil => rfl
  | cons d ds ih =>
    simp only [channel, rand, ih, if_neg (not_belowBer_zero RAND_MAX (rnd pos)),
      List.length_cons]
    refine Prod.ext rfl (Prod.ext rfl ?_)
    simp only
    omega

theorem fcs_calc_isSome (ovf : Nat → Int) (key : List Int) {packet : List Int} (hp : IsBits packet)
    (hpl : packet.length ≤ 31) (hk1 : 1 ≤ key.length) (hk2 : key.length ≤ 31) :
    ∃ v, fcs_calc ovf key packet = some v := by
  obtain ⟨R, _, _, e⟩ := fcs_calc_eq ovf key hp hpl hk1 hk2
  exact ⟨_, e⟩

theorem fcs_calc_zeros (ovf : Nat → Int) (key : List Int) (n : Nat) (hn : n ≤ 31)
    (fcs : Int) (h : fcs_calc ovf key (List.replicate n 0) = some fcs) : fcs = 0 := by
  unfold fcs_calc at h
  have hz : dec ovf (List.replicate n 0) = 0 := by
    rw [dec_eq_natVal ovf (isBits_replicate_zero n) (by simpa using hn),
      natVal_replicate_zero]
    rfl
  simp only [hz, fcs_loop_zero] at h
  split at h
  · exact absurd h (by simp)
  · simpa using h.symm

/-- The frame `crc` sends always has remainder 0: whatever `fcs_calc` returns
on the zero-padded data, the frame carrying that value divides evenly. -/
theorem sender_remainder_zero (ovf : Nat → Int) (rnd : Nat → Nat) (pos data_len : Nat)
    {key : List Int} (hk : IsBits key) (hk1 : 1 ≤ key.length)
    (hlen : data_len + key.length - 1 ≤ 31) (fcs : Int)
    (h : fcs_calc ovf key (initSender rnd pos data_len key.length) = some fcs) :
    IsBits (writeFcs data_len (data_len + key.length - 1 - data_len)
        (initSender rnd pos data_len key.length) fcs) ∧
      (writeFcs data_len (data_len + key.length - 1 - data_len)
        (initSender rnd pos data_len key.length) fcs).length = data_len + key.length - 1 ∧
      fcs_calc ovf key (writeFcs data_len (data_len + key.length - 1 - data_len)
        (initSender rnd pos data_len key.length) fcs) = some 0 := by
  have hn : data_len + key.length - 1 - data_len = key.length - 1 := by omega
  rw [hn]
  rw [initSender_eq rnd pos data_len key.length hk1] at h ⊢
  have hd := isBits_fillData rnd pos data_len
  have hdl := fillData_length rnd pos data_len
  have hw : ∀ v : Int, 0 ≤ v →
      writeFcs data_len (key.length - 1)
        ((fillData rnd pos data_len).1 ++ List.replicate (key.length - 1) 0) v
        = (fillData rnd pos data_len).1 ++ toBits (key.length - 1) v := by
    intro v hv
    have := writeFcs_append (fillData rnd pos data_len).1 (key.length - 1) v hv
      (List.replicate (key.length - 1) 0) [] (by simp)
    simpa [hdl] using this
  by_cases hk2 : key.length ≤ 31
  · obtain ⟨f, _, e1, e2⟩ := fcs_round_trip ovf hk hd hk1 hk2 (by rw [hdl]; exact hlen)
    rw [e1] at h
    have hf : fcs = (f : Int) := (Option.some.inj h).symm
    subst hf
    rw [hw _ (by positivity)]
    refine ⟨isBits_append.mpr ⟨hd, isBits_toBits _ _⟩, ?_, e2⟩
    simp only [List.length_append, toBits_length, hdl]
    omega
  · have hd0 : data_len = 0 := by omega
    subst hd0
    have hnil : (fillData rnd pos 0).1 = [] := rfl
    rw [hnil, List.nil_append] at h ⊢
    have h0 := fcs_calc_zeros ovf key (key.length - 1) (by omega) fcs h
    subst h0
    have := hw 0 (le_refl 0)
    rw [hnil, List.nil_append, List.nil_append, toBits_zero] at this
    rw [this]
    refine ⟨isBits_replicate_zero _, by simp, h⟩

theorem crcLocals_flag_zero (ovf : Nat → Int) (RAND_MAX : Nat) (rnd : Nat → Nat)
    (pos data_len : Nat) {key : List Int} (ber : ℚ) (hk : IsBits key)
    (hk1 : 1 ≤ key.length) (hlen : data_len + key.length - 1 ≤ 31) (l : CrcLocals)
    (h : crcLocals ovf RAND_MAX rnd pos data_len key ber = some l) (hflag : l.flag = 0) :
    l.error = 0 ∧ l.receiver = l.sender := by
  unfold crcLocals at h
  simp only at h
  split at h
  · exact absurd h (by simp)
  · rename_i fcs hfcs
    obtain ⟨_, _, hz⟩ := sender_remainder_zero ovf rnd pos data_len hk hk1 hlen fcs hfcs
    split at h
    · exact absurd h (by simp)
    · rename_i e he
      have hl := Option.some.inj h
      subst hl
      simp only at hflag ⊢
      have hrec := channel_flag_zero _ _ _ _ _ hflag
      rw [hrec] at he ⊢
      simp only [errorFlag, hz] at he
      have := Option.some.inj he
      simp at this
      exact ⟨this.symm, rfl⟩

theorem crcLocals_isSome (ovf : Nat → Int) (RAND_MAX : Nat) (rnd : Nat → Nat)
    (pos data_len : Nat) {key : List Int} (ber : ℚ) (hk : IsBits key)
    (hk1 : 1 ≤ key.length) (hk2 : key.length ≤ 31)
    (hlen : data_len + key.length - 1 ≤ 31) :
    ∃ l, crcLocals ovf RAND_MAX rnd pos data_len key ber = some l ∧
      l.flag = (channel RAND_MAX rnd ber l.sender (pos + data_len)).2.1 := by
  have hs0 : IsBits (initSender rnd pos data_len key.length) := by
    rw [initSender_eq _ _ _ _ hk1]
    exact isBits_append.mpr ⟨isBits_fillData _ _ _, isBits_replicate_zero _⟩
  have hl0 : (initSender rnd pos data_len key.length).length ≤ 31 := by
    rw [initSender_eq _ _ _ _ hk1]
    simp only [List.length_append, fillData_length, List.length_replicate]
    omega
  obtain ⟨fcs, hfcs⟩ := fcs_calc_isSome ovf key hs0 hl0 hk1 hk2
  obtain ⟨hb, hl, _⟩ := sender_remainder_zero ovf rnd pos data_len hk hk1 hlen fcs hfcs
  have hrb := channel_isBits RAND_MAX rnd ber _ (pos + data_len) hb
  have hrl := channel_length RAND_MAX rnd ber
    (writeFcs data_len (data_len + key.length - 1 - data_len)
      (initSender rnd pos data_len key.length) fcs) (pos + data_len)
  obtain ⟨v, hv⟩ := fcs_calc_isSome ovf key hrb (by rw [hrl, hl]; exact hlen) hk1 hk2
  refine ⟨⟨writeFcs data_len (data_len + key.length - 1 - data_len)
      (initSender rnd pos data_len key.length) fcs,
    (channel RAND_MAX rnd ber (writeFcs data_len (data_len + key.length - 1 - data_len)
      (initSender rnd pos data_len key.length) fcs) (pos + data_len)).1,
    (channel RAND_MAX rnd ber (writeFcs data_len (data_len + key.length - 1 - data_len)
      (initSender rnd pos data_len key.length) fcs) (pos + data_len)).2.1,
    if v ≠ 0 then 1 else 0,
    (channel RAND_MAX rnd ber (writeFcs data_len (data_len + key.length - 1 - data_len)
      (initSender rnd pos data_len key.length) fcs) (pos + data_len)).2.2⟩, ?_, rfl⟩
  unfold crcLocals
  simp only [fillData_pos, hfcs, errorFlag, hv]

/-- C5. With `ber = 0`, for a key of length at least 2 with binary digits, a
data length of at least 1 with `data_len + key_len - 1 ≤ 31` and every stream
of draws, one call of `crc` returns 0 and leaves `counted_errors` unchanged;
hence after any number of trials started from zero counters `real_errors` and
`detected_errors` are both 0. -/
theorem crc_ber_zero (ovf : Nat → Int) (RAND_MAX : Nat) (rnd : Nat → Nat)
    (key : List Int) (data_len : Nat) (hk : IsBits key) (hk2 : 2 ≤ key.length)
    (hd : 1 ≤ data_len) (hlen : data_len + key.length - 1 ≤ 31) :
    (∀ pos counted_errors : Nat, ∃ out : CrcOut,
        crc ovf RAND_MAX rnd pos data_len key 0 counted_errors = some out ∧
        out.ret = 0 ∧ out.counted_errors = counted_errors) ∧
      (∀ n : Nat, ∃ st : MainState,
        trialLoop ovf RAND_MAX rnd data_len key 0 n = some st ∧
        st.real_errors = 0 ∧ st.detected_errors = 0) := by
  have hcall : ∀ pos counted_errors : Nat, ∃ out : CrcOut,
      crc ovf RAND_MAX rnd pos data_len key 0 counted_errors = some out ∧
      out.ret = 0 ∧ out.counted_errors = counted_errors := by
    intro pos ce
    obtain ⟨l, hl, hflag⟩ :=
      crcLocals_isSome ovf RAND_MAX rnd pos data_len 0 hk (by omega) (by omega) hlen
    rw [channel_ber_zero] at hflag
    simp only at hflag
    have he := (crcLocals_flag_zero ovf RAND_MAX rnd pos data_len 0 hk (by omega) hlen
      l hl hflag).1
    refine ⟨⟨l.error,
      if l.flag ≠ 0 then (ce + 1) % 18446744073709551616 else ce,
      l.pos⟩, ?_, he, ?_⟩
    · unfold crc
      simp only [hl]
    · simp [hflag]
  refine ⟨hcall, ?_⟩
  intro n
  induction n with
  | zero => exact ⟨⟨0, 0, 0⟩, rfl, rfl, rfl⟩
  | succ n ih =>
    obtain ⟨st, hst, h1, h2⟩ := ih
    obtain ⟨out, ho, o1, o2⟩ := hcall st.pos st.real_errors
    refine ⟨⟨(st.detected_errors + out.ret.toNat) % 18446744073709551616,
      out.counted_errors, out.pos⟩, ?_, ?_, ?_⟩
    · simp only [trialLoop, hst, ho]
    · simp only [o2, h1]
    · simp only [o1, h2]
      rfl

/-- Witness of C5: the key `110101` with `data_len = 20`, frame length 25. -/
theorem crc_ber_zero_witness :
    (∀ pos counted_errors : Nat, ∃ out : CrcOut,
        crc cvt_x86 2147483647 (fun i => i * 7919) pos 20 [1, 1, 0, 1, 0, 1] 0 counted_errors
          = some out ∧
        out.ret = 0 ∧ out.counted_errors = counted_errors) ∧
      (∀ n : Nat, ∃ st : MainState,
        trialLoop cvt_x86 2147483647 (fun i => i * 7919) 20 [1, 1, 0, 1, 0, 1] 0 n = some st ∧
        st.real_errors = 0 ∧ st.detected_errors = 0) :=
  crc_ber_zero cvt_x86 2147483647 (fun i => i * 7919) [1, 1, 0, 1, 0, 1] 20
    (by decide) (by decide) (by decide) (by decide)

/-- C6. `detected_errors ≤ real_errors` is an invariant of the trial loop: for
a key of length at least 2 with binary digits and any data length, bit error
rate and stream of draws with a frame length of at most 31, a call of `crc`
that returns 1 has flipped at least one digit and has incremented
`counted_errors`; so, started from zero counters, after every iteration (up to
the range of the 64-bit counters) `detected_errors ≤ real_errors`.  When the
key has at most 31 digits every call and every iteration does return. -/
theorem detected_le_real (ovf : Nat → Int) (RAND_MAX : Nat) (rnd : Nat → Nat)
    (key : List Int) (data_len : Nat) (ber : ℚ) (hk : IsBits key)
    (hk2 : 2 ≤ key.length) (hlen : data_len + key.length - 1 ≤ 31) :
    (∀ (pos counted_errors : Nat) (out : CrcOut),
        crc ovf RAND_MAX rnd pos data_len key ber counted_errors = some out →
        out.ret = 1 →
        (∃ l : CrcLocals, crcLocals ovf RAND_MAX rnd pos data_len key ber = some l ∧
          l.flag ≠ 0) ∧
        out.counted_errors = (counted_errors + 1) % 18446744073709551616) ∧
      (∀ (n : Nat) (st : MainState), n < 18446744073709551616 →
        trialLoop ovf RAND_MAX rnd data_len key ber n = some st →
        st.detected_errors ≤ st.real_errors) ∧
      (key.length ≤ 31 → ∀ n : Nat, ∃ st : MainState,
        trialLoop ovf RAND_MAX rnd data_len key ber n = some st) := by
  have hcall : ∀ (pos ce : Nat) (out : CrcOut),
      crc ovf RAND_MAX rnd pos data_len key ber ce = some out →
      (out.ret = 0 ∨ out.ret = 1) ∧
      (out.ret = 1 →
        (∃ l : CrcLocals, crcLocals ovf RAND_MAX rnd pos data_len key ber = some l ∧
          l.flag ≠ 0) ∧
        out.counted_errors = (ce + 1) % 18446744073709551616) ∧
      (out.counted_errors = ce ∨ out.counted_errors = (ce + 1) % 18446744073709551616) := by
    intro pos ce out h
    unfold crc at h
    split at h
    · exact absurd h (by simp)
    · rename_i l hl
      have ho := Option.some.inj h
      subst ho
      simp only
      have herr : l.error = 0 ∨ l.error = 1 := by
        unfold crcLocals at hl
        simp only at hl
        split at hl
        · exact absurd hl (by simp)
        · split at hl
          · exact absurd hl (by simp)
          · rename_i e he
            have := Option.some.inj hl
            subst this
            simp only
            unfold errorFlag at he
            split at he
            · exact absurd he (by simp)
            · have := Option.some.inj he
              subst this
              split
              · exact Or.inr rfl
              · exact Or.inl rfl
      refine ⟨herr, ?_, ?_⟩
      · intro h1
        have hf : l.flag ≠ 0 := by
          intro h0
          have := (crcLocals_flag_zero ovf RAND_MAX rnd pos data_len ber hk (by omega) hlen
            l hl h0).1
          omega
        exact ⟨⟨l, hl, hf⟩, by rw [if_pos hf]⟩
      · by_cases hf : l.flag ≠ 0
        · right; rw [if_pos hf]
        · left; rw [if_neg hf]
  refine ⟨fun pos ce out h h1 => (hcall pos ce out h).2.1 h1, ?_, ?_⟩
  · intro n
    have key_inv : ∀ st : MainState, n < 18446744073709551616 →
        trialLoop ovf RAND_MAX rnd data_len key ber n = some st →
        st.detected_errors ≤ st.real_errors ∧ st.real_errors ≤ n := by
      induction n with
      | zero =>
        intro st _ h
        have := Option.some.inj h
        subst this
        exact ⟨le_refl _, le_refl _⟩
      | succ n ih =>
        intro st hn h
        simp only [trialLoop] at h
        split at h
        · exact absurd h (by simp)
        · rename_i st0 hst0
          split at h
          · exact absurd h (by simp)
          · rename_i out ho
            have := Option.some.inj h
            subst this
            simp only
            obtain ⟨i1, i2⟩ := ih st0 (by omega) hst0
            obtain ⟨c1, c2, c3⟩ := hcall _ _ _ ho
            rcases c1 with e0 | e1
            · rw [e0]
              rcases c3 with c3 | c3 <;> rw [c3] <;> simp <;> omega
            · rw [e1, (c2 e1).2]
              simp
              omega
    intro st hn h
    exact (key_inv st hn h).1
  · intro hk31 n
    induction n with
    | zero => exact ⟨_, rfl⟩
    | succ n ih =>
      obtain ⟨st, hst⟩ := ih
      obtain ⟨l, hl, _⟩ := crcLocals_isSome ovf RAND_MAX rnd st.pos data_len ber hk
        (by omega) hk31 hlen
      exact ⟨⟨(st.detected_errors + l.error.toNat) % 18446744073709551616,
        if l.flag ≠ 0 then (st.real_errors + 1) % 18446744073709551616 else st.real_errors,
        l.pos⟩,
        by simp only [trialLoop, hst, crc, hl]⟩

/-- Witness of C6: the key `110101` with `data_len = 20` and a bit error rate of one in a thousand. -/
theorem detected_le_real_witness :
    (∀ (pos counted_errors : Nat) (out : CrcOut),
        crc cvt_x86 2147483647 (fun i => i * 7919) pos 20 [1, 1, 0, 1, 0, 1] (1 / 1000)
          counted_errors = some out →
        out.ret = 1 →
        (∃ l : CrcLocals,
          crcLocals cvt_x86 2147483647 (fun i => i * 7919) pos 20 [1, 1, 0, 1, 0, 1] (1 / 1000)
            = some l ∧ l.flag ≠ 0) ∧
        out.counted_errors = (counted_errors + 1) % 18446744073709551616) ∧
      (∀ (n : Nat) (st : MainState), n < 18446744073709551616 →
        trialLoop cvt_x86 2147483647 (fun i => i * 7919) 20 [1, 1, 0, 1, 0, 1] (1 / 1000) n
          = some st →
        st.detected_errors ≤ st.real_errors) ∧
      (([1, 1, 0, 1, 0, 1] : List Int).length ≤ 31 → ∀ n : Nat, ∃ st : MainState,
        trialLoop cvt_x86 2147483647 (fun i => i * 7919) 20 [1, 1, 0, 1, 0, 1] (1 / 1000) n
          = some st) :=
  detected_le_real cvt_x86 2147483647 (fun i => i * 7919) [1, 1, 0, 1, 0, 1] 20 (1 / 1000)
    (by decide) (by decide) (by decide)

/-! ## The FCS region, and `dec` as a positional value -/

theorem beVal_eq_sum (num : List Int) :
    beVal num = ∑ i ∈ Finset.range num.length, num.getD i 0 * 2 ^ (num.length - 1 - i) := by
  induction num with
  | nil => simp [beVal]
  | cons d ds ih =>
    rw [List.length_cons, Finset.sum_range_succ', beVal, ih]
    simp only [List.getD_cons_succ, List.getD_cons_zero, Nat.add_sub_cancel, Nat.sub_zero]
    rw [add_comm]
    congr 1
    apply Finset.sum_congr rfl
    intro i _
    congr 2
    omega

theorem dec_all_zero (ovf : Nat → Int) (num : List Int) (h : ∀ d ∈ num, d = 0) :
    dec ovf num = 0 := by
  unfold dec
  induction num with
  | nil => rfl
  | cons d ds ih =>
    have hd : d = 0 := h d (List.mem_cons_self _ _)
    subst hd
    have : wrap32 (0 + wrap32 (0 * powInt ovf (ds.length : Int))) = 0 := by
      simp [wrap32]
    rw [decLoop, this]
    exact ih (fun x hx => h x (List.mem_cons_of_mem _ hx))

/-- C8. `dec` reads a digit array as a big-endian binary number: for an array
of at most 31 binary digits, `dec(num, len)` is the sum of
`num[i] * 2^(len - 1 - i)`; an all-zero array and the empty array give 0; and
for a non-empty array `dec(num, len) = 2 * dec(num, len - 1) + num[len - 1]`. -/
theorem dec_big_endian (ovf : Nat → Int) (num : List Int) (h : IsBits num)
    (hlen : num.length ≤ 31) :
    dec ovf num
      = ∑ i ∈ Finset.range num.length, num.getD i 0 * 2 ^ (num.length - 1 - i) ∧
    ((∀ d ∈ num, d = 0) → dec ovf num = 0) ∧
    dec ovf [] = 0 ∧
    (num ≠ [] →
      dec ovf num
        = 2 * dec ovf (num.take (num.length - 1)) + num.getD (num.length - 1) 0) := by
  refine ⟨?_, dec_all_zero ovf num, rfl, ?_⟩
  · rw [dec_eq_beVal ovf num h hlen, beVal_eq_sum]
  · intro hne
    obtain ⟨init, x, rfl⟩ : ∃ init x, num = init ++ [x] := by
      rcases List.eq_nil_or_concat num with h0 | ⟨init, x, h0⟩
      · exact absurd h0 hne
      · exact ⟨init, x, by simpa using h0⟩
    have hb := isBits_append.mp h
    have hl : init.length ≤ 31 := by
      simp only [List.length_append, List.length_singleton] at hlen; omega
    have e1 : (init ++ [x]).take ((init ++ [x]).length - 1) = init := by simp
    have e2 : (init ++ [x]).getD ((init ++ [x]).length - 1) 0 = x := by
      simp [List.getD_append_right]
    rw [e1, e2, dec_eq_beVal ovf _ h hlen, dec_eq_beVal ovf _ hb.1 hl, beVal_append]
    simp [beVal]
    ring

/-- Witness of C8: the digits `110101`. -/
theorem dec_big_endian_witness :
    dec cvt_x86 [1, 1, 0, 1, 0, 1]
      = ∑ i ∈ Finset.range ([1, 1, 0, 1, 0, 1] : List Int).length,
          ([1, 1, 0, 1, 0, 1] : List Int).getD i 0 *
            2 ^ (([1, 1, 0, 1, 0, 1] : List Int).length - 1 - i) ∧
    ((∀ d ∈ ([1, 1, 0, 1, 0, 1] : List Int), d = 0) → dec cvt_x86 [1, 1, 0, 1, 0, 1] = 0) ∧
    dec cvt_x86 [] = 0 ∧
    (([1, 1, 0, 1, 0, 1] : List Int) ≠ [] →
      dec cvt_x86 [1, 1, 0, 1, 0, 1]
        = 2 * dec cvt_x86 (([1, 1, 0, 1, 0, 1] : List Int).take
              (([1, 1, 0, 1, 0, 1] : List Int).length - 1))
          + ([1, 1, 0, 1, 0, 1] : List Int).getD (([1, 1, 0, 1, 0, 1] : List Int).length - 1) 0) :=
  dec_big_endian cvt_x86 [1, 1, 0, 1, 0, 1] (by decide) (by decide)

/-! ## Zero divisor and over-long digit sequences -/

/-- C9 as stated fails: for the all-zero key `00` and the packet `101` the
function returns the value 1; no error is signalled. -/
theorem fcs_calc_zero_key_returns :
    (∀ d ∈ ([0, 0] : List Int), d = 0) ∧ dec cvt_x86 [0, 0] = 0 ∧
      fcs_calc cvt_x86 [0, 0] [1, 0, 1] = some 1 := by
  refine ⟨by decide, by decide, ?_⟩
  simp only [fcs_calc, show dec cvt_x86 [0, 0] = 0 from by decide, fcs_loop_zero_divisor]
  decide

/-- C9, amended. A divisor of value 0 is not rejected: for a key of 1 to 31
digits that are all 0 and every packet, `dec(key) = 0`, the loop is skipped
and `fcs_calc` returns the remainder of `dec(packet)` by `2^(key_len - 1)`.
Only the empty key stops the function, by the division by zero in its last
line. -/
theorem fcs_calc_zero_divisor (ovf : Nat → Int) (key packet : List Int)
    (hz : ∀ d ∈ key, d = 0) (hk1 : 1 ≤ key.length) (hk2 : key.length ≤ 31) :
    dec ovf key = 0 ∧
      fcs_calc ovf key packet
        = some (Int.tmod (dec ovf packet) (2 ^ (key.length - 1))) ∧
      fcs_calc ovf [] packet = none := by
  have h0 := dec_all_zero ovf key hz
  refine ⟨h0, ?_, ?_⟩
  · unfold fcs_calc
    simp only [h0, fcs_loop_zero_divisor, powInt_pred ovf hk1 hk2]
    have : (2 : Int) ^ (key.length - 1) ≠ 0 := by positivity
    rw [if_neg this]
  · unfold fcs_calc
    simp [powInt]

/-- Witness of the amended C9: the key `000` and the packet `10111`. -/
theorem fcs_calc_zero_divisor_witness :
    dec cvt_x86 [0, 0, 0] = 0 ∧
      fcs_calc cvt_x86 [0, 0, 0] [1, 0, 1, 1, 1]
        = some (Int.tmod (dec cvt_x86 [1, 0, 1, 1, 1]) (2 ^ (([0, 0, 0] : List Int).length - 1))) ∧
      fcs_calc cvt_x86 [] [1, 0, 1, 1, 1] = none :=
  fcs_calc_zero_divisor cvt_x86 [0, 0, 0] [1, 0, 1, 1, 1] (by decide) (by decide) (by decide)

theorem decLoop_range (ovf : Nat → Int) (ds : List Int) (total : Int)
    (h : -2147483648 ≤ total ∧ total < 2147483648) :
    -2147483648 ≤ decLoop ovf ds total ∧ decLoop ovf ds total < 2147483648 := by
  induction ds generalizing total with
  | nil => exact h
  | cons d ds ih => exact ih _ (wrap32_range _)

theorem dec_zero_cons (ovf : Nat → Int) (num : List Int) : dec ovf (0 :: num) = dec ovf num := by
  have : wrap32 (0 + wrap32 (0 * powInt ovf (num.length : Int))) = 0 := by
    simp [wrap32]
  simp only [dec, decLoop, this]

set_option maxRecDepth 20000 in
/-- C10 as stated fails: `dec` accepts 32 digits.  For `0` followed by 31 ones
it returns `2^31 - 1`, and for 32 ones (value `2^32 - 1`) it returns the
wrapped value `-1` when the out-of-range conversion yields `INT_MIN`. -/
theorem dec_accepts_32_digits :
    31 < ((0 : Int) :: List.replicate 31 1).length ∧
      dec cvt_x86 (0 :: List.replicate 31 1) = 2147483647 ∧
      31 < (List.replicate 32 (1 : Int)).length ∧
      beVal (List.replicate 32 1) = 4294967295 ∧
      dec cvt_x86 (List.replicate 32 1) = -1 := by
  refine ⟨by decide, by decide, by decide, by decide, by decide⟩

/-- C10, amended. `dec` enforces no maximum length: for every digit sequence it
returns a value of the 32-bit `int` range; leading zero digits, however many,
do not change the result; and whenever the big-endian value of the sequence is
`2^31` or more the returned value is not that value (it is silently wrapped),
whatever the out-of-range conversion yields. -/
theorem dec_unchecked_length (ovf : Nat → Int) (num : List Int) :
    (-2147483648 ≤ dec ovf num ∧ dec ovf num < 2147483648) ∧
      (∀ n : Nat, dec ovf (List.replicate n 0 ++ num) = dec ovf num) ∧
      (2147483648 ≤ beVal num → dec ovf num ≠ beVal num) := by
  have hr := decLoop_range ovf num 0 ⟨by decide, by decide⟩
  refine ⟨hr, ?_, ?_⟩
  · intro n
    induction n with
    | zero => rfl
    | succ n ih =>
      rw [List.replicate_succ, List.cons_append, dec_zero_cons, ih]
  · intro hbig heq
    have := hr.2
    unfold dec at heq
    omega

/-! ## All-zero packets -/

/-- C11. For a key with binary digits and non-zero value and a packet of any
length whose digits are all 0, `fcs_calc` returns 0 when the key has at most 31
digits, and in no case returns a value other than 0. -/
theorem fcs_calc_all_zero_packet (ovf : Nat → Int) (key packet : List Int)
    (_hk : IsBits key) (hnz : dec ovf key ≠ 0) (hz : ∀ d ∈ packet, d = 0) :
    (key.length ≤ 31 → fcs_calc ovf key packet = some 0) ∧
      (∀ v : Int, fcs_calc ovf key packet = some v → v = 0) := by
  have h0 := dec_all_zero ovf packet hz
  have hk1 : 1 ≤ key.length := by
    cases key with
    | nil => exact absurd rfl hnz
    | cons d ds => simp
  constructor
  · intro hk2
    unfold fcs_calc
    simp only [h0, fcs_loop_zero, powInt_pred ovf hk1 hk2, Int.zero_tmod]
    have : (2 : Int) ^ (key.length - 1) ≠ 0 := by positivity
    rw [if_neg this]
  · intro v hv
    unfold fcs_calc at hv
    simp only [h0, fcs_loop_zero, Int.zero_tmod] at hv
    split at hv
    · exact absurd hv (by simp)
    · exact (Option.some.inj hv).symm

/-- Witness of C11: the key `110101` and a packet of 40 zeros. -/
theorem fcs_calc_all_zero_packet_witness :
    (([1, 1, 0, 1, 0, 1] : List Int).length ≤ 31 →
        fcs_calc cvt_x86 [1, 1, 0, 1, 0, 1] (List.replicate 40 0) = some 0) ∧
      (∀ v : Int, fcs_calc cvt_x86 [1, 1, 0, 1, 0, 1] (List.replicate 40 0) = some v → v = 0) :=
  fcs_calc_all_zero_packet cvt_x86 [1, 1, 0, 1, 0, 1] (List.replicate 40 0)
    (by decide) (by decide) (fun d hd => (List.mem_replicate.mp hd).2)

/-! ## `bin` -/

theorem binLoop_data (num : List Int) (n i : Nat) (total : String)
    (h : ∀ j, j < n → num.getD (i + j) 0 = 0 ∨ num.getD (i + j) 0 = 1) :
    (binLoop num n i total).data = total.data ++
      (List.range n).map (fun j => if num.getD (i + j) 0 = 0 then '0' else '1') := by
  induction n generalizing i total with
  | zero => simp [binLoop]
  | succ n ih =>
    have hstep : (total ++ toString (num.getD i 0)).data
        = total.data ++ [if num.getD i 0 = 0 then '0' else '1'] := by
      rw [String.data_append]
      rcases h 0 (Nat.succ_pos n) with e | e <;> simp only [Nat.add_zero] at e <;> rw [e] <;> rfl
    rw [binLoop, ih (i + 1) _ (fun j hj => by
      have := h (j + 1) (by omega)
      rwa [show i + 1 + j = i + (j + 1) from by omega]), hstep, List.range_succ_eq_map,
      List.map_cons, List.map_map, List.append_assoc]
    simp only [List.singleton_append, Nat.add_zero]
    congr 2
    apply List.map_congr_left
    intro j _
    simp only [Function.comp, Nat.succ_eq_add_one]
    rw [show i + 1 + j = i + (j + 1) from by omega]

/-- C12. `bin` renders a sub-range in order: for an array of binary digits and
`0 ≤ start ≤ end ≤ len`, `bin(num, start, end)` is a string of exactly
`end - start` characters whose `j`-th character is `'0'` when
`num[start + j] = 0` and `'1'` when `num[start + j] = 1`; for `start ≥ end` it
is the empty string. -/
theorem bin_renders_range (num : List Int) (start end_ : Nat) (hb : IsBits num)
    (hse : start ≤ end_) (hel : end_ ≤ num.length) :
    (bin num start end_).length = end_ - start ∧
      (bin num start end_).data = (List.range (end_ - start)).map
        (fun j => if num.getD (start + j) 0 = 0 then '0' else '1') ∧
      (∀ j, j < end_ - start →
        (num.getD (start + j) 0 = 0 → (bin num start end_).data.get? j = some '0') ∧
        (num.getD (start + j) 0 = 1 → (bin num start end_).data.get? j = some '1')) ∧
      (∀ s e : Nat, s ≥ e → bin num s e = "") := by
  have hdig : ∀ j, j < end_ - start →
      num.getD (start + j) 0 = 0 ∨ num.getD (start + j) 0 = 1 := by
    intro j hj
    have hlt : start + j < num.length := by omega
    rw [List.getD_eq_getElem _ _ hlt]
    exact hb _ (List.getElem_mem _)
  have hdata := binLoop_data num (end_ - start) start "" hdig
  have hd : (bin num start end_).data = (List.range (end_ - start)).map
      (fun j => if num.getD (start + j) 0 = 0 then '0' else '1') := by
    unfold bin; rw [hdata]; rfl
  refine ⟨?_, hd, ?_, ?_⟩
  · show (bin num start end_).data.length = _
    rw [hd]; simp
  · intro j hj
    rw [hd]
    have hget : ((List.range (end_ - start)).map
        (fun j => if num.getD (start + j) 0 = 0 then '0' else '1')).get? j
        = some (if num.getD (start + j) 0 = 0 then '0' else '1') := by
      rw [List.get?_eq_getElem?, List.getElem?_map, List.getElem?_range hj]
      rfl
    rw [hget]
    constructor
    · intro h0
      rw [if_pos h0]
    · intro h1
      rw [if_neg (by rw [h1]; decide)]
  · intro s e hge
    unfold bin
    rw [Nat.sub_eq_zero_of_le hge]
    rfl

/-- Witness of C12: the digits 1 to 4 of `110101`. -/
theorem bin_renders_range_witness :
    (bin [1, 1, 0, 1, 0, 1] 1 5).length = 5 - 1 ∧
      (bin [1, 1, 0, 1, 0, 1] 1 5).data = (List.range (5 - 1)).map
        (fun j => if ([1, 1, 0, 1, 0, 1] : List Int).getD (1 + j) 0 = 0 then '0' else '1') ∧
      (∀ j, j < 5 - 1 →
        (([1, 1, 0, 1, 0, 1] : List Int).getD (1 + j) 0 = 0 →
          (bin [1, 1, 0, 1, 0, 1] 1 5).data.get? j = some '0') ∧
        (([1, 1, 0, 1, 0, 1] : List Int).getD (1 + j) 0 = 1 →
          (bin [1, 1, 0, 1, 0, 1] 1 5).data.get? j = some '1')) ∧
      (∀ s e : Nat, s ≥ e → bin [1, 1, 0, 1, 0, 1] s e = "") :=
  bin_renders_range [1, 1, 0, 1, 0, 1] 1 5 (by decide) (by decide) (by decide)

/-! ## Termination and iteration count of the division loop -/

theorem xor_shift_lt_two_pow (a b : Nat) (ha : a ≠ 0) (hb : b ≠ 0) (h : b.log2 ≤ a.log2) :
    a ^^^ (b <<< (a.log2 - b.log2)) < 2 ^ a.log2 := by
  apply Nat.lt_pow_two_of_testBit
  intro i hi
  rw [Nat.testBit_xor, Nat.testBit_shiftLeft]
  rcases Nat.eq_or_lt_of_le hi with h2 | h2
  · subst h2
    have e3 : a.log2 - (a.log2 - b.log2) = b.log2 := by omega
    simp [testBit_log2 a ha, testBit_log2 b hb, e3]
  · have e1 := testBit_of_lt_two_pow (Nat.lt_log2_self (n := a)) (by omega : a.log2 + 1 ≤ i)
    have e2 := testBit_of_lt_two_pow (Nat.lt_log2_self (n := b))
      (by omega : b.log2 + 1 ≤ i - (a.log2 - b.log2))
    simp [e1, e2]

theorem bitLength_lt_of_lt_two_pow {x a : Nat} (ha : a ≠ 0) (h : x < 2 ^ a.log2) :
    bitLength x < bitLength a := by
  unfold bitLength
  rw [if_neg ha]
  split
  · omega
  · rename_i hx
    have := (Nat.log2_lt hx).mpr h
    omega

theorem loopGuard_bitLength {a b : Nat} (h : loopGuard (a : Int) (b : Int)) :
    a ≠ 0 ∧ b ≠ 0 ∧ bitLength b ≤ bitLength a := by
  obtain ⟨h1, h2, h3⟩ := (loopGuard_natCast a b).mp h
  refine ⟨h1, h2, ?_⟩
  simp only [bitLength, h1, h2, if_false]
  omega

theorem loopState_natCast (n a b : Nat) (h : bitLength a + 1 - bitLength b ≤ n) :
    ¬ loopGuard (loopState n (a : Int) (b : Int)) (b : Int) ∧
      loopState n (a : Int) (b : Int) = fcs_loop (a : Int) (b : Int) := by
  induction n generalizing a with
  | zero =>
    have hg : ¬ loopGuard (a : Int) (b : Int) := by
      intro hg
      have := (loopGuard_bitLength hg).2.2
      omega
    exact ⟨hg, (fcs_loop_of_not_guard hg).symm⟩
  | succ n ih =>
    by_cases hg : loopGuard (a : Int) (b : Int)
    · obtain ⟨ha, hb, hl⟩ := (loopGuard_natCast a b).mp hg
      have hlt := bitLength_lt_of_lt_two_pow ha (xor_shift_lt_two_pow a b ha hb hl)
      have := ih (a ^^^ (b <<< (a.log2 - b.log2))) (by omega)
      rw [loopState, if_pos hg, fcs_loop_of_guard hg, loopStep_natCast]
      exact this
    · rw [loopState, if_neg hg]
      exact ⟨hg, (fcs_loop_of_not_guard hg).symm⟩

/-- C13. The division loop of `fcs_calc` terminates for all non-negative `r`
and `p`: an iteration clears the highest set bit of `r`, so the bit length of
`r` strictly decreases; after `bitLength(r) - bitLength(p) + 1` iterations (no
iteration when `r` is shorter than `p`) the guard is false and `r` has its exit
value; and for `r = 0` the guard is false by its first conjunct, the loop
leaves with 0 and the returned remainder is 0. -/
theorem fcs_loop_terminates (r p : Int) (hr : 0 ≤ r) (hp : 0 ≤ p) :
    (loopGuard r p →
      0 ≤ loopStep r p ∧
      (loopStep r p).toNat.testBit (Nat.log2 r.toNat) = false ∧
      bitLength (loopStep r p).toNat < bitLength r.toNat) ∧
    (¬ loopGuard (loopState (bitLength r.toNat + 1 - bitLength p.toNat) r p) p ∧
      loopState (bitLength r.toNat + 1 - bitLength p.toNat) r p = fcs_loop r p) ∧
    (¬ loopGuard 0 p ∧ fcs_loop 0 p = 0 ∧ ∀ m : Int, Int.tmod (fcs_loop 0 p) m = 0) := by
  obtain ⟨a, rfl⟩ := Int.eq_ofNat_of_zero_le hr
  obtain ⟨b, rfl⟩ := Int.eq_ofNat_of_zero_le hp
  simp only [Int.toNat_ofNat]
  refine ⟨?_, loopState_natCast _ a b (le_refl _), ?_⟩
  · intro hg
    obtain ⟨ha, hb, hl⟩ := (loopGuard_natCast a b).mp hg
    have hlt := xor_shift_lt_two_pow a b ha hb hl
    rw [loopStep_natCast, Int.toNat_ofNat]
    exact ⟨by positivity, Nat.testBit_lt_two_pow hlt, bitLength_lt_of_lt_two_pow ha hlt⟩
  · refine ⟨fun h => h.1 rfl, fcs_loop_zero _, ?_⟩
    intro m
    rw [fcs_loop_zero, Int.zero_tmod]

/-- Witness of C13: `r = 53` and `p = 7`. -/
theorem fcs_loop_terminates_witness :
    (loopGuard 53 7 →
      0 ≤ loopStep 53 7 ∧
      (loopStep 53 7).toNat.testBit (Nat.log2 (53 : Int).toNat) = false ∧
      bitLength (loopStep 53 7).toNat < bitLength (53 : Int).toNat) ∧
    (¬ loopGuard (loopState (bitLength (53 : Int).toNat + 1 - bitLength (7 : Int).toNat) 53 7) 7 ∧
      loopState (bitLength (53 : Int).toNat + 1 - bitLength (7 : Int).toNat) 53 7
        = fcs_loop 53 7) ∧
    (¬ loopGuard 0 7 ∧ fcs_loop 0 7 = 0 ∧ ∀ m : Int, Int.tmod (fcs_loop 0 7) m = 0) :=
  fcs_loop_terminates 53 7 (by decide) (by decide)

theorem clmulN_double (n a b : Nat) : clmulN (n + 1) (2 * a) b = 2 * clmulN n a b := by
  induction n with
  | zero =>
    show (if (2 * a).testBit 0 then b <<< 0 else 0) ^^^ 0 = 2 * 0
    simp
  | succ n ih =>
    show (if (2 * a).testBit (n + 1) then b <<< (n + 1) else 0) ^^^ clmulN (n + 1) (2 * a) b
      = 2 * ((if a.testBit n then b <<< n else 0) ^^^ clmulN n a b)
    rw [ih, Nat.testBit_succ, Nat.mul_div_cancel_left a (by decide : 0 < 2)]
    have h2 : ∀ x : Nat, 2 * x = x <<< 1 := fun x => by rw [Nat.shiftLeft_eq]; ring
    rw [h2 (clmulN n a b), h2 (_ ^^^ _), shiftLeft_xor]
    congr 1
    split
    · rw [← Nat.shiftLeft_add]
    · simp

theorem clmul_double (a b : Nat) : clmul (2 * a) b = 2 * clmul a b := by
  have h1 : 2 * a < 2 ^ (a + 1) := by
    have := Nat.lt_two_pow a
    rw [pow_succ]; omega
  rw [clmul_eq_clmulN b h1, clmulN_double]
  rfl

theorem clmul_one_left (b : Nat) : clmul 1 b = b := by
  have := clmul_two_pow 0 b
  simpa using this

theorem two_pow_le_natVal_of_head {key : List Int} (hk : IsBits key)
    (hh : key.head? = some 1) : 2 ^ (key.length - 1) ≤ natVal key := by
  cases key with
  | nil => simp at hh
  | cons d ds =>
    simp only [List.head?_cons, Option.some.injEq] at hh
    subst hh
    rw [natVal_cons hk]
    simp

theorem log2_natVal_of_head {key : List Int} (hk : IsBits key) (hk1 : 1 ≤ key.length)
    (hh : key.head? = some 1) : (natVal key).log2 = key.length - 1 := by
  have h1 := two_pow_le_natVal_of_head hk hh
  have h2 := natVal_lt hk
  have hne : natVal key ≠ 0 := by
    have : 0 < 2 ^ (key.length - 1) := by positivity
    omega
  have h3 := (Nat.le_log2 hne).mpr h1
  have h4 := (Nat.log2_lt hne).mpr h2
  omega

theorem bit_toNat {d : Int} (h : d = 0 ∨ d = 1) : d.toNat < 2 := by
  rcases h with e | e <;> subst e <;> decide

/-- One step of the serial division keeps the register below `2^(k-1)` and
keeps it congruent to the digits read so far. -/
theorem serialStep_spec {p k : Nat} (hk : 1 ≤ k) (hlog : p.log2 = k - 1) (hp : p ≠ 0)
    {reg v Q : Nat} {d : Int} (hd : d = 0 ∨ d = 1) (hreg : reg < 2 ^ (k - 1))
    (hv : v = clmul Q p ^^^ reg) :
    serialStep p k reg d < 2 ^ (k - 1) ∧
      ∃ Q2, 2 * v + d.toNat = clmul Q2 p ^^^ serialStep p k reg d := by
  have hd2 := bit_toNat hd
  have hpull : 2 * reg + d.toNat < 2 ^ k := by
    have : 2 ^ k = 2 * 2 ^ (k - 1) := by
      rw [← pow_succ']; congr 1; omega
    omega
  have hval : 2 * v + d.toNat = clmul (2 * Q) p ^^^ (2 * reg + d.toNat) := by
    have h2 : ∀ x : Nat, 2 * x = x <<< 1 := fun x => by rw [Nat.shiftLeft_eq]; ring
    have e1 : 2 * v = clmul (2 * Q) p ^^^ (2 * reg) := by
      rw [clmul_double, hv, h2 (_ ^^^ _), shiftLeft_xor, ← h2, ← h2]
    have e2 : ∀ z : Nat, 2 * z + d.toNat = (2 * z) ^^^ d.toNat := by
      intro z
      have := mul_two_pow_add_eq_xor (a := z) (b := d.toNat) (i := 1) (by simpa using hd2)
      simpa [Nat.mul_comm] using this
    rw [e2 v, e1, Nat.xor_assoc, ← e2 reg]
  unfold serialStep
  split
  · rename_i htop
    constructor
    · apply Nat.lt_pow_two_of_testBit
      intro i hi
      rw [Nat.testBit_xor]
      rcases Nat.eq_or_lt_of_le hi with h2 | h2
      · subst h2
        have := testBit_log2 p hp
        rw [hlog] at this
        simp [htop, this]
      · have e1 := testBit_of_lt_two_pow hpull (by omega : k ≤ i)
        have e2 := testBit_of_lt_two_pow (Nat.lt_log2_self (n := p)) (by omega : p.log2 + 1 ≤ i)
        simp [e1, e2]
    · refine ⟨2 * Q ^^^ 1, ?_⟩
      rw [clmul_xor_left, clmul_one_left, hval, Nat.xor_assoc]
      congr 1
      rw [Nat.xor_comm (2 * reg + d.toNat) p, Nat.xor_cancel_left]
  · rename_i htop
    constructor
    · apply Nat.lt_pow_two_of_testBit
      intro i hi
      rcases Nat.eq_or_lt_of_le hi with h2 | h2
      · subst h2; simpa using htop
      · exact testBit_of_lt_two_pow hpull (by omega : k ≤ i)
    · exact ⟨2 * Q, hval⟩

theorem serialDiv_foldl {p k : Nat} (hk : 1 ≤ k) (hlog : p.log2 = k - 1) (hp : p ≠ 0)
    (packet : List Int) (hb : IsBits packet) (reg v Q : Nat) (hreg : reg < 2 ^ (k - 1))
    (hv : v = clmul Q p ^^^ reg) :
    packet.foldl (serialStep p k) reg < 2 ^ (k - 1) ∧
      ∃ Q2, v * 2 ^ packet.length + natVal packet
        = clmul Q2 p ^^^ packet.foldl (serialStep p k) reg := by
  induction packet generalizing reg v Q with
  | nil => exact ⟨hreg, Q, by simpa [natVal, beVal] using hv⟩
  | cons d ds ih =>
    have hc := isBits_cons.mp hb
    obtain ⟨s1, Q1, s2⟩ := serialStep_spec hk hlog hp hc.1 hreg hv
    obtain ⟨t1, Q2, t2⟩ := ih hc.2 _ _ Q1 s1 s2
    refine ⟨t1, Q2, ?_⟩
    rw [List.foldl_cons, ← t2, natVal_cons hb, List.length_cons, pow_succ]
    ring

set_option maxRecDepth 20000 in
/-- C14 as stated fails for a key of more than 31 digits.  The 33-digit key
`11` `0...0` `11` has first digit 1; with the out-of-range conversion of
x86-64 its two leading digits cancel and `dec(key) = 3`.  The packet `101` is
the carry-less square of 3, so `fcs_calc` returns 0, while the serial division
by the 33-digit key never fills its register with the 3 digits of the packet
and ends with the register 5. -/
theorem fcs_calc_ne_serialDiv_long_key :
    2 ≤ ((1 : Int) :: 1 :: List.replicate 29 0 ++ [1, 1]).length ∧
      ((1 : Int) :: 1 :: List.replicate 29 0 ++ [1, 1]).head? = some 1 ∧
      IsBits (1 :: 1 :: List.replicate 29 0 ++ [1, 1]) ∧
      dec cvt_x86 (1 :: 1 :: List.replicate 29 0 ++ [1, 1]) = 3 ∧
      IsBits [1, 0, 1] ∧ ([1, 0, 1] : List Int).length ≤ 31 ∧
      fcs_calc cvt_x86 (1 :: 1 :: List.replicate 29 0 ++ [1, 1]) [1, 0, 1] = some 0 ∧
      serialDiv (1 :: 1 :: List.replicate 29 0 ++ [1, 1]) [1, 0, 1] = 5 ∧
      fcs_calc cvt_x86 (1 :: 1 :: List.replicate 29 0 ++ [1, 1]) [1, 0, 1]
        ≠ some (serialDiv (1 :: 1 :: List.replicate 29 0 ++ [1, 1]) [1, 0, 1] : Int) := by
  have hkv : dec cvt_x86 (1 :: 1 :: List.replicate 29 0 ++ [1, 1]) = 3 := by decide
  have h5 : fcs_loop 5 3 = 0 := by
    have h := @fcs_loop_unique 3 5 3 0 (by decide) (by decide) (by positivity)
    exact_mod_cast h
  have hf : fcs_calc cvt_x86 (1 :: 1 :: List.replicate 29 0 ++ [1, 1]) [1, 0, 1] = some 0 := by
    unfold fcs_calc
    simp only [hkv, show dec cvt_x86 [1, 0, 1] = 5 from by decide, h5]
    decide
  have hs : serialDiv (1 :: 1 :: List.replicate 29 0 ++ [1, 1]) [1, 0, 1] = 5 := by decide
  refine ⟨by decide, by decide, by decide, hkv, by decide, by decide, hf, hs, ?_⟩
  rw [hf, hs]
  decide

/-- C14, amended. `fcs_calc` agrees with the bit-serial long division of its doc
comment for keys of the supported width: for a key of length at least 2 and at
most 31 with first digit 1 and a
packet of at most 31 binary digits, the register of the serial division,
which scans the packet most significant digit first, pulls one digit down per
step and XORs with the key when the register has `key_len` bits, stays below
`2^(key_len - 1)` after every step, and its value after the last digit is the
value `fcs_calc` returns. -/
theorem fcs_calc_eq_serialDiv (ovf : Nat → Int) (key packet : List Int)
    (hk : IsBits key) (hk2 : 2 ≤ key.length) (hkl : key.length ≤ 31)
    (hfirst : key.head? = some 1) (hp : IsBits packet) (hpl : packet.length ≤ 31) :
    fcs_calc ovf key packet = some (serialDiv key packet : Int) ∧
      ∀ n : Nat, serialDiv key (packet.take n) < 2 ^ (key.length - 1) := by
  have hlog := log2_natVal_of_head hk (by omega) hfirst
  have hne : natVal key ≠ 0 := by
    have h1 := two_pow_le_natVal_of_head hk hfirst
    have : 0 < 2 ^ (key.length - 1) := by positivity
    omega
  have h0 : (0 : Nat) = clmul 0 (natVal key) ^^^ 0 := by simp [clmul_zero_left]
  constructor
  · obtain ⟨t1, Q, t2⟩ := serialDiv_foldl (by omega : 1 ≤ key.length) hlog hne packet hp
      0 0 0 (by positivity) h0
    apply fcs_calc_of_division ovf hk hp hkl hpl hne Q
    · simpa using t2
    · rw [hlog]; exact t1
  · intro n
    have hb : IsBits (packet.take n) := fun d hd => hp d (List.mem_of_mem_take hd)
    exact (serialDiv_foldl (by omega : 1 ≤ key.length) hlog hne (packet.take n) hb
      0 0 0 (by positivity) h0).1

/-- Witness of the amended C14: the key `110101` and the packet
`101000110100000`. -/
theorem fcs_calc_eq_serialDiv_witness :
    fcs_calc cvt_x86 [1, 1, 0, 1, 0, 1] [1, 0, 1, 0, 0, 0, 1, 1, 0, 1, 0, 0, 0, 0, 0]
        = some (serialDiv [1, 1, 0, 1, 0, 1]
            [1, 0, 1, 0, 0, 0, 1, 1, 0, 1, 0, 0, 0, 0, 0] : Int) ∧
      ∀ n : Nat, serialDiv [1, 1, 0, 1, 0, 1]
          (([1, 0, 1, 0, 0, 0, 1, 1, 0, 1, 0, 0, 0, 0, 0] : List Int).take n)
        < 2 ^ (([1, 1, 0, 1, 0, 1] : List Int).length - 1) :=
  fcs_calc_eq_serialDiv cvt_x86 [1, 1, 0, 1, 0, 1]
    [1, 0, 1, 0, 0, 0, 1, 1, 0, 1, 0, 0, 0, 0, 0]
    (by decide) (by decide) (by decide) (by decide) (by decide) (by decide)

/-! ## The channel in detail -/

theorem flipPattern_succ (RAND_MAX : Nat) (rnd : Nat → Nat) (ber : ℚ) (n pos : Nat) :
    flipPattern RAND_MAX rnd ber (n + 1) pos
      = (if belowBer RAND_MAX ber (rnd pos) then 1 else 0)
          :: flipPattern RAND_MAX rnd ber n (pos + 1) := by
  unfold flipPattern
  rw [List.range_succ_eq_map, List.map_cons, List.map_map]
  simp only [Nat.add_zero]
  congr 1
  apply List.map_congr_left
  intro i _
  simp only [Function.comp, Nat.succ_eq_add_one]
  rw [show pos + (i + 1) = pos + 1 + i from by omega]

theorem flipPattern_length (RAND_MAX : Nat) (rnd : Nat → Nat) (ber : ℚ) (n pos : Nat) :
    (flipPattern RAND_MAX rnd ber n pos).length = n := by
  simp [flipPattern]

theorem isBits_flipPattern (RAND_MAX : Nat) (rnd : Nat → Nat) (ber : ℚ) (n pos : Nat) :
    IsBits (flipPattern RAND_MAX rnd ber n pos) := by
  intro d hd
  simp only [flipPattern, List.mem_map] at hd
  obtain ⟨i, _, rfl⟩ := hd
  split
  · exact Or.inr rfl
  · exact Or.inl rfl

/-- The receiver array: a digit whose pattern digit is 1 is complemented, every
other digit is copied; the counter `flag` is the number of ones of the
pattern. -/
theorem channel_eq (RAND_MAX : Nat) (rnd : Nat → Nat) (ber : ℚ) (s : List Int) (pos : Nat) :
    (channel RAND_MAX rnd ber s pos).1
        = List.zipWith (fun x f => if f = 1 then (if x ≠ 0 then 0 else 1) else x) s
            (flipPattern RAND_MAX rnd ber s.length pos) ∧
      (channel RAND_MAX rnd ber s pos).2.1
        = (flipPattern RAND_MAX rnd ber s.length pos).count 1 := by
  induction s generalizing pos with
  | nil => simp [channel, flipPattern]
  | cons d ds ih =>
    obtain ⟨i1, i2⟩ := ih (pos + 1)
    rw [List.length_cons, flipPattern_succ]
    simp only [channel, rand]
    split
    · simp [i1, i2]
    · simp [i1, i2]

theorem channel_eq_self_iff (RAND_MAX : Nat) (rnd : Nat → Nat) (ber : ℚ) (s : List Int)
    (pos : Nat) :
    (channel RAND_MAX rnd ber s pos).2.1 ≠ 0 ↔ (channel RAND_MAX rnd ber s pos).1 ≠ s := by
  constructor
  · intro h heq
    apply h
    clear h
    induction s generalizing pos with
    | nil => rfl
    | cons d ds ih =>
      simp only [channel, rand] at heq ⊢
      split at heq
      · simp only [List.cons.injEq] at heq
        exfalso
        have h1 := heq.1
        split at h1
        · rename_i hd; exact hd h1.symm
        · rename_i hd
          simp only [ne_eq, not_not] at hd
          rw [hd] at h1
          exact absurd h1 (by decide)
      · rename_i hc
        rw [if_neg hc]
        simp only [List.cons.injEq, true_and] at heq
        exact ih _ heq
  · intro h h0
    exact h (channel_flag_zero _ _ _ _ _ h0)

theorem channel_xorBits (RAND_MAX : Nat) (rnd : Nat → Nat) (ber : ℚ) (s : List Int)
    (pos : Nat) (hs : IsBits s) :
    (channel RAND_MAX rnd ber s pos).1
      = xorBits s (flipPattern RAND_MAX rnd ber s.length pos) := by
  induction s generalizing pos with
  | nil => simp [channel, flipPattern, xorBits]
  | cons d ds ih =>
    have hc := isBits_cons.mp hs
    rw [List.length_cons, flipPattern_succ]
    simp only [channel, rand, xorBits, List.zipWith_cons_cons]
    have := ih (pos + 1) hc.2
    unfold xorBits at this
    split
    · rw [this]
      rcases hc.1 with e | e <;> subst e <;> simp
    · rw [this]
      rcases hc.1 with e | e <;> subst e <;> simp

theorem writeFcs_length (data_len n : Nat) (s : List Int) (fcs : Int) :
    (writeFcs data_len n s fcs).length = s.length := by
  induction n generalizing s fcs with
  | zero => rfl
  | succ n ih =>
    rw [writeFcs]
    split
    · rw [ih, List.length_set]
    · rfl

theorem isBits_writeFcs (data_len n : Nat) (s : List Int) (fcs : Int) (hs : IsBits s) :
    IsBits (writeFcs data_len n s fcs) := by
  induction n generalizing s fcs with
  | zero => exact hs
  | succ n ih =>
    rw [writeFcs]
    split
    · rename_i h0
      apply ih
      apply isBits_set hs
      rw [Int.tmod_eq_emod h0 (by decide)]
      omega
    · exact hs

theorem fcs_calc_nil (ovf : Nat → Int) (packet : List Int) : fcs_calc ovf [] packet = none := by
  unfold fcs_calc
  simp [powInt]

theorem initSender_length (rnd : Nat → Nat) (pos data_len key_len : Nat) (h : 1 ≤ key_len) :
    (initSender rnd pos data_len key_len).length = data_len + key_len - 1 := by
  rw [initSender_eq _ _ _ _ h]
  simp only [List.length_append, fillData_length, List.length_replicate]
  omega

theorem isBits_initSender (rnd : Nat → Nat) (pos data_len key_len : Nat) :
    IsBits (initSender rnd pos data_len key_len) :=
  isBits_append.mpr ⟨isBits_fillData _ _ _, isBits_replicate_zero _⟩

/-- What a returning call of `crc` has computed. -/
theorem crcLocals_inv (ovf : Nat → Int) (RAND_MAX : Nat) (rnd : Nat → Nat)
    (pos data_len : Nat) (key : List Int) (ber : ℚ) (l : CrcLocals)
    (h : crcLocals ovf RAND_MAX rnd pos data_len key ber = some l) :
    1 ≤ key.length ∧
    (∃ fcs : Int, fcs_calc ovf key (initSender rnd pos data_len key.length) = some fcs ∧
      l.sender = writeFcs data_len (data_len + key.length - 1 - data_len)
        (initSender rnd pos data_len key.length) fcs) ∧
    l.receiver = (channel RAND_MAX rnd ber l.sender (pos + data_len)).1 ∧
    l.flag = (channel RAND_MAX rnd ber l.sender (pos + data_len)).2.1 ∧
    errorFlag ovf key l.receiver = some l.error ∧
    IsBits l.sender ∧ l.sender.length = data_len + key.length - 1 ∧
    l.pos = pos + data_len + (data_len + key.length - 1) := by
  have hk1 : 1 ≤ key.length := by
    cases key with
    | nil =>
      unfold crcLocals at h
      simp only [fcs_calc_nil] at h
      exact absurd h (by simp)
    | cons d ds => simp
  unfold crcLocals at h
  simp only [fillData_pos] at h
  split at h
  · exact absurd h (by simp)
  · rename_i fcs hfcs
    split at h
    · exact absurd h (by simp)
    · rename_i e he
      have hl := Option.some.inj h
      subst hl
      refine ⟨hk1, ⟨fcs, hfcs, rfl⟩, rfl, rfl, he, ?_, ?_, ?_⟩
      · exact isBits_writeFcs _ _ _ _ (isBits_initSender _ _ _ _)
      · simp only
        rw [writeFcs_length, initSender_length _ _ _ _ hk1]
      · simp only
        rw [channel_pos, writeFcs_length, initSender_length _ _ _ _ hk1]

/-- C15. In one call of `crc`, `counted_errors` is incremented by 1 (modulo
`2^64`) when at least one digit of the receiver was flipped and left unchanged
otherwise, however many digits were flipped (`flag` is their number); every
flipped digit is the complement of the sender digit and every other digit is
copied; so `counted_errors` is incremented exactly when the receiver frame
differs from the sender frame. -/
theorem crc_counts_corruption (ovf : Nat → Int) (RAND_MAX : Nat) (rnd : Nat → Nat)
    (pos data_len : Nat) (key : List Int) (ber : ℚ) (counted_errors : Nat)
    (l : CrcLocals) (hl : crcLocals ovf RAND_MAX rnd pos data_len key ber = some l) :
    l.flag = (flipPattern RAND_MAX rnd ber l.sender.length (pos + data_len)).count 1 ∧
    l.receiver = List.zipWith (fun x f => if f = 1 then (if x ≠ 0 then 0 else 1) else x)
      l.sender (flipPattern RAND_MAX rnd ber l.sender.length (pos + data_len)) ∧
    IsBits l.sender ∧
    (l.flag ≠ 0 ↔ l.receiver ≠ l.sender) ∧
    crc ovf RAND_MAX rnd pos data_len key ber counted_errors
      = some ⟨l.error,
          if l.receiver ≠ l.sender then (counted_errors + 1) % 18446744073709551616
          else counted_errors,
          pos + data_len + (data_len + key.length - 1)⟩ ∧
    (counted_errors + 1 < 18446744073709551616 →
      crc ovf RAND_MAX rnd pos data_len key ber counted_errors
        = some ⟨l.error, counted_errors + (if l.receiver ≠ l.sender then 1 else 0),
            pos + data_len + (data_len + key.length - 1)⟩) := by
  obtain ⟨_, _, h3, h4, _, h6, _, h8⟩ :=
    crcLocals_inv ovf RAND_MAX rnd pos data_len key ber l hl
  have hc := channel_eq RAND_MAX rnd ber l.sender (pos + data_len)
  have hiff : l.flag ≠ 0 ↔ l.receiver ≠ l.sender := by
    rw [h3, h4]; exact channel_eq_self_iff _ _ _ _ _
  have hcrc : crc ovf RAND_MAX rnd pos data_len key ber counted_errors
      = some ⟨l.error,
          if l.receiver ≠ l.sender then (counted_errors + 1) % 18446744073709551616
          else counted_errors,
          pos + data_len + (data_len + key.length - 1)⟩ := by
    unfold crc
    simp only [hl, h8]
    by_cases hf : l.flag ≠ 0
    · rw [if_pos hf, if_pos (hiff.mp hf)]
    · rw [if_neg hf, if_neg (fun h => hf (hiff.mpr h))]
  refine ⟨by rw [h4]; exact hc.2, by rw [h3]; exact hc.1, h6, hiff, hcrc, ?_⟩
  intro hlt
  rw [hcrc, Nat.mod_eq_of_lt hlt]
  by_cases hne : l.receiver ≠ l.sender
  · rw [if_pos hne, if_pos hne]
  · rw [if_neg hne, if_neg hne]; rfl

/-- Witness of C15: one call with the key `110101`, `data_len = 20` and a bit
error rate of one half. -/
theorem crc_counts_corruption_witness :
    ∃ l : CrcLocals,
      crcLocals cvt_x86 2147483647 (fun i => i * 7919) 0 20 [1, 1, 0, 1, 0, 1] (1 / 2) = some l ∧
      (l.flag ≠ 0 ↔ l.receiver ≠ l.sender) ∧
      crc cvt_x86 2147483647 (fun i => i * 7919) 0 20 [1, 1, 0, 1, 0, 1] (1 / 2) 7
        = some ⟨l.error,
            if l.receiver ≠ l.sender then (7 + 1) % 18446744073709551616 else 7,
            0 + 20 + (20 + ([1, 1, 0, 1, 0, 1] : List Int).length - 1)⟩ := by
  obtain ⟨l, hl, _⟩ := @crcLocals_isSome cvt_x86 2147483647 (fun i => i * 7919) 0 20
    [1, 1, 0, 1, 0, 1] (1 / 2) (by decide) (by decide) (by decide) (by decide)
  have h := crc_counts_corruption cvt_x86 2147483647 (fun i => i * 7919) 0 20
    [1, 1, 0, 1, 0, 1] (1 / 2) 7 l hl
  exact ⟨l, hl, h.2.2.2.1, h.2.2.2.2.1⟩

/-! ## The random stream -/

theorem fillData_congr (rnd1 rnd2 : Nat → Nat) (pos data_len : Nat)
    (h : ∀ i, i < data_len → rnd1 (pos + i) = rnd2 (pos + i)) :
    fillData rnd1 pos data_len = fillData rnd2 pos data_len := by
  rw [fillData_eq, fillData_eq]
  congr 1
  apply List.map_congr_left
  intro i hi
  rw [h i (List.mem_range.mp hi)]

theorem channel_congr (RAND_MAX : Nat) (rnd1 rnd2 : Nat → Nat) (ber : ℚ) (s : List Int)
    (pos : Nat) (h : ∀ i, i < s.length → rnd1 (pos + i) = rnd2 (pos + i)) :
    channel RAND_MAX rnd1 ber s pos = channel RAND_MAX rnd2 ber s pos := by
  induction s generalizing pos with
  | nil => rfl
  | cons d ds ih =>
    have h0 := h 0 (by simp)
    simp only [Nat.add_zero] at h0
    have := ih (pos + 1) (fun i hi => by
      have := h (i + 1) (by simpa using hi)
      rwa [show pos + 1 + i = pos + (i + 1) from by omega])
    simp only [channel, rand, this, h0]

/-- The channel changes exactly the digits whose draw passes the test of line
94: digit `i` is decided by the draw at `pos + i`. -/
theorem channel_getD (RAND_MAX : Nat) (rnd : Nat → Nat) (ber : ℚ) (s : List Int)
    (pos i : Nat) (hi : i < s.length) :
    (channel RAND_MAX rnd ber s pos).1.getD i 0 ≠ s.getD i 0
      ↔ belowBer RAND_MAX ber (rnd (pos + i)) := by
  induction s generalizing pos i with
  | nil => simp at hi
  | cons d ds ih =>
    cases i with
    | zero =>
      simp only [channel, rand, Nat.add_zero]
      by_cases hc : belowBer RAND_MAX ber (rnd pos)
      · rw [if_pos hc]
        refine ⟨fun _ => hc, fun _ => ?_⟩
        show (if d ≠ 0 then (0 : Int) else 1) ≠ d
        split
        · rename_i hd; exact fun h => hd h.symm
        · rename_i hd
          simp only [ne_eq, not_not] at hd
          rw [hd]; decide
      · rw [if_neg hc]
        exact ⟨fun h => absurd rfl h, fun h => absurd h hc⟩
    | succ j =>
      have hj : j < ds.length := by simpa using hi
      have := ih (pos + 1) j hj
      rw [show pos + 1 + j = pos + (j + 1) from by omega] at this
      rw [← this]
      simp only [channel, rand]
      split <;> simp only [List.getD_cons_succ]

/-- The loop writing the FCS leaves the data region alone. -/
theorem writeFcs_getD_data (data_len n : Nat) (s : List Int) (fcs : Int) (i : Nat)
    (hi : i < data_len) : (writeFcs data_len n s fcs).getD i 0 = s.getD i 0 := by
  induction n generalizing s fcs with
  | zero => rfl
  | succ n ih =>
    rw [writeFcs]
    split
    · rw [ih]
      simp only [List.getD_eq_getElem?_getD]
      rw [List.getElem?_set_ne (by omega : data_len + n ≠ i)]
    · rfl

/-- Digit `i` of the data region is the draw at `pos + i`, reduced modulo 2. -/
theorem initSender_getD (rnd : Nat → Nat) (pos data_len key_len i : Nat)
    (hi : i < data_len) :
    (initSender rnd pos data_len key_len).getD i 0 = ((rnd (pos + i) % 2 : Nat) : Int) := by
  unfold initSender
  rw [fillData_eq]
  simp only [List.getD_eq_getElem?_getD]
  rw [List.getElem?_append_left (by simpa using hi)]
  simp [hi]

/-- One call of `crc` reads the stream only at the `data_len` positions from
`pos` on (data) and at the `data_len + key_len - 1` positions after them
(channel). -/
theorem crcLocals_congr (ovf : Nat → Int) (RAND_MAX : Nat) (rnd1 rnd2 : Nat → Nat)
    (pos data_len : Nat) (key : List Int) (ber : ℚ)
    (h : ∀ i, i < 2 * data_len + key.length - 1 → rnd1 (pos + i) = rnd2 (pos + i)) :
    crcLocals ovf RAND_MAX rnd1 pos data_len key ber
      = crcLocals ovf RAND_MAX rnd2 pos data_len key ber := by
  cases key with
  | nil =>
    unfold crcLocals
    simp only [fcs_calc_nil]
  | cons d ds =>
    have hk1 : 1 ≤ (d :: ds).length := by simp
    have hfill : fillData rnd1 pos data_len = fillData rnd2 pos data_len :=
      fillData_congr _ _ _ _ (fun i hi => h i (by omega))
    have hinit : initSender rnd1 pos data_len (d :: ds).length
        = initSender rnd2 pos data_len (d :: ds).length := by
      unfold initSender; rw [hfill]
    unfold crcLocals
    simp only [hinit, fillData_pos]
    cases hf : fcs_calc ovf (d :: ds) (initSender rnd2 pos data_len (d :: ds).length) with
    | none => rfl
    | some fcs =>
      simp only
      rw [channel_congr RAND_MAX rnd1 rnd2 ber _ (pos + data_len) (fun i hi => by
        rw [writeFcs_length, initSender_length _ _ _ _ hk1] at hi
        have := h (data_len + i) (by omega)
        rwa [show pos + data_len + i = pos + (data_len + i) from by omega])]

theorem crc_pos (ovf : Nat → Int) (RAND_MAX : Nat) (rnd : Nat → Nat) (pos data_len : Nat)
    (key : List Int) (ber : ℚ) (ce : Nat) (out : CrcOut)
    (h : crc ovf RAND_MAX rnd pos data_len key ber ce = some out) :
    out.pos = pos + (2 * data_len + key.length - 1) := by
  unfold crc at h
  split at h
  · exact absurd h (by simp)
  · rename_i l hl
    obtain ⟨hk1, _, _, _, _, _, _, hpos⟩ :=
      crcLocals_inv ovf RAND_MAX rnd pos data_len key ber l hl
    have := Option.some.inj h
    subst this
    simp only
    omega

theorem trialLoop_pos (ovf : Nat → Int) (RAND_MAX : Nat) (rnd : Nat → Nat) (data_len : Nat)
    (key : List Int) (ber : ℚ) (n : Nat) (st : MainState)
    (h : trialLoop ovf RAND_MAX rnd data_len key ber n = some st) :
    st.pos = n * (2 * data_len + key.length - 1) := by
  induction n generalizing st with
  | zero =>
    have := Option.some.inj h
    subst this
    simp
  | succ n ih =>
    simp only [trialLoop] at h
    split at h
    · exact absurd h (by simp)
    · rename_i st0 hst0
      split at h
      · exact absurd h (by simp)
      · rename_i out ho
        have := Option.some.inj h
        subst this
        simp only
        rw [crc_pos _ _ _ _ _ _ _ _ _ ho, ih st0 hst0]
        ring

/-- C17. With `rand()` as an explicit stream of draws and a cursor that every
call of `rand()` advances by one: the loop filling the data leaves the cursor
`data_len` draws further and the channel loop one draw further per digit; in a
call of `crc` that returns, digit `i` of the data region is the draw at
`pos + i` modulo 2, digit `i` of the receiver differs from the sender exactly
when the draw at `pos + data_len + i` passes the test of line 94, and the
cursor ends `data_len + (data_len + key_len - 1)` draws after `pos`; two calls
with the same key, `data_len` and `ber` on streams that agree on these
`2 * data_len + key_len - 1` draws return the same flag and update
`counted_errors` alike; and two runs of the trial loop on streams that agree on
the draws of `n` trials end with the same counters. -/
theorem crc_reads_its_draws (ovf : Nat → Int) (RAND_MAX : Nat) (rnd1 rnd2 : Nat → Nat)
    (data_len : Nat) (key : List Int) (ber : ℚ) :
    (∀ pos : Nat, rand rnd1 pos = (rnd1 pos, pos + 1) ∧
        (fillData rnd1 pos data_len).2 = pos + data_len ∧
        ∀ s : List Int, (channel RAND_MAX rnd1 ber s pos).2.2 = pos + s.length) ∧
    (∀ (pos : Nat) (l : CrcLocals),
        crcLocals ovf RAND_MAX rnd1 pos data_len key ber = some l →
        l.pos = pos + data_len + (data_len + key.length - 1) ∧
        l.sender.length = data_len + key.length - 1 ∧
        l.receiver.length = data_len + key.length - 1 ∧
        (∀ i, i < data_len → l.sender.getD i 0 = ((rnd1 (pos + i) % 2 : Nat) : Int)) ∧
        (∀ i, i < data_len + key.length - 1 →
          (l.receiver.getD i 0 ≠ l.sender.getD i 0 ↔
            belowBer RAND_MAX ber (rnd1 (pos + data_len + i))))) ∧
    (∀ (pos ce : Nat) (out : CrcOut),
        crc ovf RAND_MAX rnd1 pos data_len key ber ce = some out →
        out.pos = pos + data_len + (data_len + key.length - 1)) ∧
    (∀ pos ce : Nat,
        (∀ i, i < 2 * data_len + key.length - 1 → rnd1 (pos + i) = rnd2 (pos + i)) →
        crc ovf RAND_MAX rnd1 pos data_len key ber ce
          = crc ovf RAND_MAX rnd2 pos data_len key ber ce) ∧
    (∀ n : Nat,
        (∀ i, i < n * (2 * data_len + key.length - 1) → rnd1 i = rnd2 i) →
        trialLoop ovf RAND_MAX rnd1 data_len key ber n
          = trialLoop ovf RAND_MAX rnd2 data_len key ber n) := by
  have hcall : ∀ pos ce : Nat,
      (∀ i, i < 2 * data_len + key.length - 1 → rnd1 (pos + i) = rnd2 (pos + i)) →
      crc ovf RAND_MAX rnd1 pos data_len key ber ce
        = crc ovf RAND_MAX rnd2 pos data_len key ber ce := by
    intro pos ce h
    unfold crc
    rw [crcLocals_congr ovf RAND_MAX rnd1 rnd2 pos data_len key ber h]
  refine ⟨?_, ?_, ?_, hcall, ?_⟩
  · intro pos
    exact ⟨rfl, fillData_pos _ _ _, fun s => channel_pos _ _ _ _ _⟩
  · intro pos l hl
    obtain ⟨hk1, ⟨fcs, _, hs⟩, h3, _, _, _, h7, h8⟩ :=
      crcLocals_inv ovf RAND_MAX rnd1 pos data_len key ber l hl
    refine ⟨h8, h7, by rw [h3, channel_length, h7], ?_, ?_⟩
    · intro i hi
      rw [hs, writeFcs_getD_data _ _ _ _ _ hi, initSender_getD _ _ _ _ _ hi]
    · intro i hi
      rw [h3]
      exact channel_getD RAND_MAX rnd1 ber l.sender (pos + data_len) i (by rw [h7]; exact hi)
  · intro pos ce out h
    rw [crc_pos _ _ _ _ _ _ _ _ _ h]
    have hk1 : 1 ≤ key.length := by
      unfold crc at h
      split at h
      · exact absurd h (by simp)
      · rename_i l hl
        exact (crcLocals_inv ovf RAND_MAX rnd1 pos data_len key ber l hl).1
    omega
  · intro n
    induction n with
    | zero => intro _; rfl
    | succ n ih =>
      intro h
      have hprev := ih (fun i hi => h i (by
        have : n * (2 * data_len + key.length - 1)
            ≤ (n + 1) * (2 * data_len + key.length - 1) :=
          Nat.mul_le_mul_right _ (Nat.le_succ n)
        omega))
      simp only [trialLoop, hprev]
      cases hst : trialLoop ovf RAND_MAX rnd2 data_len key ber n with
      | none => rfl
      | some st =>
        simp only
        have hpos := trialLoop_pos _ _ _ _ _ _ _ _ hst
        rw [hcall st.pos st.real_errors (fun i hi => h _ (by
          rw [hpos, Nat.succ_mul n]; exact Nat.add_lt_add_left hi _))]

/-- Witness of C17: one call with the key `110101` and `data_len = 20` on two
streams that agree on the first 45 draws. -/
theorem crc_reads_its_draws_witness :
    crc cvt_x86 2147483647 (fun i => i * 7919) 0 20 [1, 1, 0, 1, 0, 1] (1 / 2) 0
      = crc cvt_x86 2147483647 (fun i => if i < 45 then i * 7919 else 0) 0 20
          [1, 1, 0, 1, 0, 1] (1 / 2) 0 :=
  (crc_reads_its_draws cvt_x86 2147483647 (fun i => i * 7919)
    (fun i => if i < 45 then i * 7919 else 0) 20 [1, 1, 0, 1, 0, 1] (1 / 2)).2.2.2.1 0 0
    (fun i hi => by
      have h45 : 0 + i < 45 := by
        simp only [List.length_cons, List.length_nil] at hi
        omega
      simp only [if_pos h45])

/-! ## Undetected corruption -/

theorem fillData_zero (rnd : Nat → Nat) (pos data_len : Nat)
    (h : ∀ i, i < data_len → rnd (pos + i) % 2 = 0) :
    (fillData rnd pos data_len).1 = List.replicate data_len 0 := by
  have hc : ∀ i ∈ List.range data_len,
      ((rnd (pos + i) % 2 : Nat) : Int) = (fun _ => (0 : Int)) i := by
    intro i hi
    rw [h i (List.mem_range.mp hi)]
    rfl
  rw [fillData_eq]
  simp only
  rw [List.map_congr_left hc]
  simp

theorem flipPattern_of_flips (RAND_MAX : Nat) (hR : 0 < RAND_MAX) (flips : Nat → Bool)
    (ber : ℚ) (h0 : 0 < ber) (h1 : ber ≤ 1) (n pos : Nat) :
    flipPattern RAND_MAX (fun i => if flips i = true then 0 else RAND_MAX) ber n pos
      = (List.range n).map (fun i => if flips (pos + i) = true then 1 else 0) := by
  unfold flipPattern
  apply List.map_congr_left
  intro i _
  cases hf : flips (pos + i)
  · simp only [hf, Bool.false_eq_true, if_false]
    rw [if_neg (not_belowBer_max RAND_MAX hR ber h1)]
  · simp only [hf, if_true]
    rw [if_pos (belowBer_zero_draw RAND_MAX hR ber h0)]

/-- C16. Undetected corruption exists: for the key `110101` and
`data_len = 20`, with the bit error rate of `main`, there is a stream of draws
(a data frame of zeros, flips in the pattern of the key at the end of the
frame) for which `crc` flips digits, increments `counted_errors` and returns
0; after this first trial of `main`, `detected_errors < real_errors`. -/
theorem undetected_corruption (ovf : Nat → Int) (RAND_MAX : Nat) (hR : 0 < RAND_MAX) :
    ∃ rnd : Nat → Nat, (∀ i, rnd i ≤ RAND_MAX) ∧
      (∃ l : CrcLocals,
        crcLocals ovf RAND_MAX rnd 0 20 [1, 1, 0, 1, 0, 1] (8589935 / 8589934592) = some l ∧
        l.flag ≠ 0 ∧ l.receiver ≠ l.sender ∧ l.error = 0) ∧
      crc ovf RAND_MAX rnd 0 20 [1, 1, 0, 1, 0, 1] (8589935 / 8589934592) 0
        = some ⟨0, 1, 45⟩ ∧
      (∃ st : MainState, mainLoop ovf RAND_MAX rnd 1 = some st ∧
        st.detected_errors < st.real_errors) := by
  let flips : Nat → Bool := fun i => decide (i < 20 ∨ i = 39 ∨ i = 40 ∨ i = 42 ∨ i = 44)
  have hber0 : (0 : ℚ) < 8589935 / 8589934592 := by norm_num
  have hber1 : (8589935 / 8589934592 : ℚ) ≤ 1 := by norm_num
  have h1 : initSender (fun i => if flips i = true then 0 else RAND_MAX) 0 20
      ([1, 1, 0, 1, 0, 1] : List Int).length = List.replicate 25 0 := by
    unfold initSender
    rw [fillData_zero _ _ _ (fun i hi => by
      have : flips i = true := by simp [flips]; omega
      simp [this])]
    decide
  have h2 : fcs_calc ovf [1, 1, 0, 1, 0, 1] (List.replicate 25 0) = some 0 :=
    @fcs_calc_multiple ovf [1, 1, 0, 1, 0, 1] (List.replicate 25 0)
      (by decide) (by decide) (by decide) (by decide) (by decide) 0 (by decide)
  have h3 : writeFcs 20 (20 + ([1, 1, 0, 1, 0, 1] : List Int).length - 1 - 20)
      (List.replicate 25 0) 0 = List.replicate 25 0 := by decide
  have hpat : flipPattern RAND_MAX (fun i => if flips i = true then 0 else RAND_MAX)
      (8589935 / 8589934592) 25 20
      = List.replicate 19 0 ++ [1, 1, 0, 1, 0, 1] := by
    rw [flipPattern_of_flips RAND_MAX hR flips _ hber0 hber1]
    decide
  have hch := channel_eq RAND_MAX (fun i => if flips i = true then 0 else RAND_MAX)
    (8589935 / 8589934592) (List.replicate 25 0) 20
  rw [List.length_replicate, hpat] at hch
  have h4 : channel RAND_MAX (fun i => if flips i = true then 0 else RAND_MAX)
      (8589935 / 8589934592) (List.replicate 25 0) (0 + 20)
      = (List.replicate 19 0 ++ [1, 1, 0, 1, 0, 1], 4, 45) := by
    rw [Nat.zero_add]
    refine Prod.ext ?_ (Prod.ext ?_ ?_)
    · rw [hch.1]; decide
    · rw [hch.2]; decide
    · rw [channel_pos]; rfl
  have h5 : errorFlag ovf [1, 1, 0, 1, 0, 1] (List.replicate 19 0 ++ [1, 1, 0, 1, 0, 1])
      = some 0 := by
    unfold errorFlag
    rw [@fcs_calc_multiple ovf [1, 1, 0, 1, 0, 1] (List.replicate 19 0 ++ [1, 1, 0, 1, 0, 1])
      (by decide) (by decide) (by decide) (by decide) (by decide) 1 (by decide)]
    rfl
  have hloc : crcLocals ovf RAND_MAX (fun i => if flips i = true then 0 else RAND_MAX) 0 20
      [1, 1, 0, 1, 0, 1] (8589935 / 8589934592)
      = some ⟨List.replicate 25 0, List.replicate 19 0 ++ [1, 1, 0, 1, 0, 1], 4, 0, 45⟩ := by
    unfold crcLocals
    simp only [fillData_pos, h1, h2, h3, h4, h5]
  have hcrc : crc ovf RAND_MAX (fun i => if flips i = true then 0 else RAND_MAX) 0 20
      [1, 1, 0, 1, 0, 1] (8589935 / 8589934592) 0 = some ⟨0, 1, 45⟩ := by
    unfold crc
    simp only [hloc]
    rfl
  refine ⟨fun i => if flips i = true then 0 else RAND_MAX, ?_, ⟨_, hloc, ?_, ?_, rfl⟩,
    hcrc, ⟨⟨0, 1, 45⟩, ?_, ?_⟩⟩
  · intro i
    show (if flips i = true then 0 else RAND_MAX) ≤ RAND_MAX
    split
    · exact Nat.zero_le _
    · exact le_refl _
  · decide
  · decide
  · simp only [mainLoop, trialLoop, hcrc]
    rfl
  · decide

/-- Witness of C16: `RAND_MAX = 2147483647` and the x86-64 conversion. -/
theorem undetected_corruption_witness :
    ∃ rnd : Nat → Nat, (∀ i, rnd i ≤ 2147483647) ∧
      (∃ l : CrcLocals,
        crcLocals cvt_x86 2147483647 rnd 0 20 [1, 1, 0, 1, 0, 1] (8589935 / 8589934592)
          = some l ∧
        l.flag ≠ 0 ∧ l.receiver ≠ l.sender ∧ l.error = 0) ∧
      crc cvt_x86 2147483647 rnd 0 20 [1, 1, 0, 1, 0, 1] (8589935 / 8589934592) 0
        = some ⟨0, 1, 45⟩ ∧
      (∃ st : MainState, mainLoop cvt_x86 2147483647 rnd 1 = some st ∧
        st.detected_errors < st.real_errors) :=
  undetected_corruption cvt_x86 2147483647 (by decide)

/-! ## Linearity of the remainder -/

theorem xorBits_length (a b : List Int) (h : a.length = b.length) :
    (xorBits a b).length = a.length := by
  simp [xorBits, h]

theorem isBits_xorBits (a b : List Int) : IsBits (xorBits a b) := by
  induction a generalizing b with
  | nil => intro d hd; simp [xorBits] at hd
  | cons x xs ih =>
    cases b with
    | nil => intro d hd; simp [xorBits] at hd
    | cons y ys =>
      simp only [xorBits, List.zipWith_cons_cons]
      refine isBits_cons.mpr ⟨?_, ih ys⟩
      split
      · exact Or.inl rfl
      · exact Or.inr rfl

theorem mul_two_pow_xor (x y n : Nat) : (x ^^^ y) * 2 ^ n = (x * 2 ^ n) ^^^ (y * 2 ^ n) := by
  rw [← Nat.shiftLeft_eq, ← Nat.shiftLeft_eq, ← Nat.shiftLeft_eq, shiftLeft_xor]

theorem xor_four (a b c d : Nat) : (a ^^^ b) ^^^ (c ^^^ d) = (a ^^^ c) ^^^ (b ^^^ d) := by
  rw [Nat.xor_assoc, Nat.xor_assoc, ← Nat.xor_assoc b c d, Nat.xor_comm b c, Nat.xor_assoc c b d]

/-- The value of the digit-wise exclusive or is the exclusive or of the values. -/
theorem natVal_xorBits (a b : List Int) (ha : IsBits a) (hb : IsBits b)
    (h : a.length = b.length) : natVal (xorBits a b) = natVal a ^^^ natVal b := by
  induction a generalizing b with
  | nil =>
    cases b with
    | nil => rfl
    | cons y ys => simp at h
  | cons x xs ih =>
    cases b with
    | nil => simp at h
    | cons y ys =>
      have hxa := isBits_cons.mp ha
      have hyb := isBits_cons.mp hb
      have hl : xs.length = ys.length := by simpa using h
      have hx := isBits_xorBits (x :: xs) (y :: ys)
      have hA := natVal_lt hxa.2
      have hB := natVal_lt hyb.2
      rw [← hl] at hB
      have hAB := Nat.xor_lt_two_pow hA hB
      have hd : (if x = y then (0 : Int) else 1).toNat = x.toNat ^^^ y.toNat := by
        rcases hxa.1 with e | e <;> rcases hyb.1 with f | f <;> subst e <;> subst f <;> decide
      have e0 : xorBits (x :: xs) (y :: ys)
          = (if x = y then 0 else 1) :: xorBits xs ys := rfl
      rw [e0] at hx ⊢
      rw [natVal_cons hx, natVal_cons ha, natVal_cons hb, xorBits_length xs ys hl,
        ih ys hxa.2 hyb.2 hl, hd, ← hl, mul_two_pow_add_eq_xor hAB,
        mul_two_pow_add_eq_xor hA, mul_two_pow_add_eq_xor hB, mul_two_pow_xor, xor_four]

/-- The exit value of the loop is XOR-linear in the dividend, for every
divisor: a positive divisor leaves the carry-less remainder, any other divisor
leaves the dividend as it is. -/
theorem fcs_loop_xor (p : Int) (a b : Nat) :
    ∃ ra rb : Nat, fcs_loop (a : Int) p = (ra : Int) ∧ fcs_loop (b : Int) p = (rb : Int) ∧
      fcs_loop ((a ^^^ b : Nat) : Int) p = ((ra ^^^ rb : Nat) : Int) ∧ ra ≤ a ∧ rb ≤ b := by
  by_cases hp : 0 < p
  · have hcast : ((p.toNat : Nat) : Int) = p := Int.toNat_of_nonneg (le_of_lt hp)
    have hne : p.toNat ≠ 0 := by omega
    obtain ⟨Qa, Ra, a1, a2, a3, a4⟩ := fcs_loop_spec p.toNat hne a
    obtain ⟨Qb, Rb, b1, b2, b3, b4⟩ := fcs_loop_spec p.toNat hne b
    have hab := @fcs_loop_unique p.toNat (a ^^^ b) (Qa ^^^ Qb) (Ra ^^^ Rb) hne
      (by rw [clmul_xor_left, xor_four, ← a2, ← b2]) (Nat.xor_lt_two_pow a3 b3)
    rw [hcast] at a1 b1 hab
    exact ⟨Ra, Rb, a1, b1, hab, a4, b4⟩
  · have hg : ∀ r : Int, fcs_loop r p = r := fun r =>
      fcs_loop_of_not_guard (fun h => hp h.2.2.2.1)
    exact ⟨a, b, hg _, hg _, hg _, le_refl _, le_refl _⟩

/-- The remainder by a power of two, or by `INT_MIN`, acts bit by bit on the
values of `[0, 2^31)`. -/
theorem tmod_xor (m : Int) (hm : (∃ n : Nat, m = 2 ^ n) ∨ m = -2147483648) (x y : Nat)
    (hx : x < 2147483648) (hy : y < 2147483648) :
    ∃ rx ry : Nat, Int.tmod (x : Int) m = (rx : Int) ∧ Int.tmod (y : Int) m = (ry : Int) ∧
      Int.tmod ((x ^^^ y : Nat) : Int) m = ((rx ^^^ ry : Nat) : Int) := by
  rcases hm with ⟨n, rfl⟩ | rfl
  · refine ⟨x % 2 ^ n, y % 2 ^ n, tmod_two_pow_natCast x n, tmod_two_pow_natCast y n, ?_⟩
    rw [tmod_two_pow_natCast]
    congr 1
    apply Nat.eq_of_testBit_eq
    intro i
    simp only [Nat.testBit_mod_two_pow, Nat.testBit_xor]
    by_cases hi : i < n <;> simp [hi]
  · have hid : ∀ z : Nat, z < 2147483648 → Int.tmod (z : Int) (-2147483648) = (z : Int) := by
      intro z hz
      rw [Int.tmod_neg]
      exact Int.tmod_eq_of_lt (by positivity) (by exact_mod_cast hz)
    have hxy : x ^^^ y < 2147483648 := Nat.xor_lt_two_pow (n := 31) hx hy
    exact ⟨x, y, hid x hx, hid y hy, hid _ hxy⟩

theorem natVal_lt_int31 {num : List Int} (h : IsBits num) (hl : num.length ≤ 31) :
    natVal num < 2147483648 :=
  lt_of_lt_of_le (natVal_lt h) (Nat.pow_le_pow_right (by decide) hl)

theorem fcs_calc_of_modulus (ovf : Nat → Int) (key packet : List Int)
    (hm0 : powInt ovf ((key.length : Int) - 1) ≠ 0) :
    fcs_calc ovf key packet
      = some (Int.tmod (fcs_loop (dec ovf packet) (dec ovf key))
          (powInt ovf ((key.length : Int) - 1))) := by
  unfold fcs_calc
  simp only [if_neg hm0]

/-- When the modulus of the last line of `fcs_calc` is a power of two (every
key of 1 to 31 digits) or `INT_MIN` (a longer key with the out-of-range
conversion of x86-64), the result is XOR-linear in the packet. -/
theorem fcs_calc_xorBits (ovf : Nat → Int) {key a b : List Int}
    (hm : (1 ≤ key.length ∧ key.length ≤ 31) ∨
      powInt ovf ((key.length : Int) - 1) = -2147483648)
    (ha : IsBits a) (hb : IsBits b) (hlen : a.length = b.length) (hal : a.length ≤ 31) :
    ∃ ra rb : Nat, fcs_calc ovf key a = some (ra : Int) ∧ fcs_calc ovf key b = some (rb : Int) ∧
      fcs_calc ovf key (xorBits a b) = some ((ra ^^^ rb : Nat) : Int) := by
  have hx := isBits_xorBits a b
  have hxl : (xorBits a b).length ≤ 31 := by rw [xorBits_length a b hlen]; exact hal
  obtain ⟨la, lb, e1, e2, e3, e4, e5⟩ := fcs_loop_xor (dec ovf key) (natVal a) (natVal b)
  have hm2 : (∃ n : Nat, powInt ovf ((key.length : Int) - 1) = 2 ^ n) ∨
      powInt ovf ((key.length : Int) - 1) = -2147483648 := by
    rcases hm with ⟨h1, h2⟩ | h
    · exact Or.inl ⟨key.length - 1, powInt_pred ovf h1 h2⟩
    · exact Or.inr h
  have hm0 : powInt ovf ((key.length : Int) - 1) ≠ 0 := by
    rcases hm2 with ⟨n, h⟩ | h <;> rw [h]
    · positivity
    · decide
  have hla : la < 2147483648 := lt_of_le_of_lt e4 (natVal_lt_int31 ha hal)
  have hlb : lb < 2147483648 := lt_of_le_of_lt e5 (natVal_lt_int31 hb (by omega))
  obtain ⟨ra, rb, f1, f2, f3⟩ := tmod_xor _ hm2 la lb hla hlb
  refine ⟨ra, rb, ?_, ?_, ?_⟩
  · rw [fcs_calc_of_modulus ovf key a hm0, dec_eq_natVal ovf ha hal, e1, f1]
  · rw [fcs_calc_of_modulus ovf key b hm0, dec_eq_natVal ovf hb (by omega), e2, f2]
  · rw [fcs_calc_of_modulus ovf key _ hm0, dec_eq_natVal ovf hx hxl,
      natVal_xorBits a b ha hb hlen, e3, f3]

theorem crcLocals_isSome_of_modulus (ovf : Nat → Int) (RAND_MAX : Nat) (rnd : Nat → Nat)
    (pos data_len : Nat) (key : List Int) (ber : ℚ)
    (hm0 : powInt ovf ((key.length : Int) - 1) ≠ 0) :
    ∃ l, crcLocals ovf RAND_MAX rnd pos data_len key ber = some l := by
  unfold crcLocals
  simp only [fcs_calc_of_modulus ovf key _ hm0, errorFlag]
  exact ⟨_, rfl⟩

/-- In a call of `crc` the receiver is the sender XOR the flip pattern of the
draws, and the returned value is the value computed from the flip pattern
alone. -/
theorem crcLocals_error_of_pattern (ovf : Nat → Int) (RAND_MAX : Nat) (rnd : Nat → Nat)
    (pos data_len : Nat) (ber : ℚ) {key : List Int} (hk : IsBits key)
    (hm : (1 ≤ key.length ∧ key.length ≤ 31) ∨
      powInt ovf ((key.length : Int) - 1) = -2147483648)
    (hfl : data_len + key.length - 1 ≤ 31) (l : CrcLocals)
    (hl : crcLocals ovf RAND_MAX rnd pos data_len key ber = some l) :
    l.receiver = xorBits l.sender
        (flipPattern RAND_MAX rnd ber (data_len + key.length - 1) (pos + data_len)) ∧
      errorFlag ovf key
        (flipPattern RAND_MAX rnd ber (data_len + key.length - 1) (pos + data_len))
        = some l.error := by
  obtain ⟨hk1, ⟨fcs, hfcs, hs⟩, h3, _, h5, h6, h7, _⟩ :=
    crcLocals_inv ovf RAND_MAX rnd pos data_len key ber l hl
  have hz := (sender_remainder_zero ovf rnd pos data_len hk hk1 hfl fcs hfcs).2.2
  rw [← hs] at hz
  have hrec : l.receiver = xorBits l.sender
      (flipPattern RAND_MAX rnd ber (data_len + key.length - 1) (pos + data_len)) := by
    rw [h3, channel_xorBits _ _ _ _ _ h6, h7]
  refine ⟨hrec, ?_⟩
  have hpb := isBits_flipPattern RAND_MAX rnd ber (data_len + key.length - 1) (pos + data_len)
  obtain ⟨ra, rb, e1, e2, e3⟩ := fcs_calc_xorBits ovf hm h6 hpb
    (by rw [h7, flipPattern_length]) (by rw [h7]; exact hfl)
  rw [hz] at e1
  have hra : ra = 0 := by
    have := Option.some.inj e1
    exact_mod_cast this.symm
  subst hra
  rw [Nat.zero_xor] at e3
  rw [← h5, hrec]
  unfold errorFlag
  rw [e2, e3]

set_option maxRecDepth 20000 in
/-- C18 as stated fails for a key of more than 31 digits.  With an
out-of-range conversion that saturates (AArch64), the 32-digit key
`11` `0...0` has the wrapped, negative value `dec(key) = -1073741825`, the
loop is skipped and the modulus of the last line is `INT_MAX`.  For the
packets `A` of 31 ones and `B = 0...01` the results are 0 and 1, while
`fcs_calc(key, A XOR B) = 2147483646`: the remainder is not linear, and the
valid frame `A` with the flip pattern `B` does not have the remainder of
`B`. -/
theorem fcs_calc_not_linear_long_key :
    IsBits ((1 : Int) :: 1 :: List.replicate 30 0) ∧
      dec cvt_sat (1 :: 1 :: List.replicate 30 0) = -1073741825 ∧
      dec cvt_sat (1 :: 1 :: List.replicate 30 0) ≠ 0 ∧
      IsBits (List.replicate 31 1) ∧ IsBits (List.replicate 30 0 ++ [1]) ∧
      (List.replicate 31 (1 : Int)).length = (List.replicate 30 (0 : Int) ++ [1]).length ∧
      (List.replicate 31 (1 : Int)).length ≤ 31 ∧
      fcs_calc cvt_sat (1 :: 1 :: List.replicate 30 0) (List.replicate 31 1) = some 0 ∧
      fcs_calc cvt_sat (1 :: 1 :: List.replicate 30 0) (List.replicate 30 0 ++ [1]) = some 1 ∧
      fcs_calc cvt_sat (1 :: 1 :: List.replicate 30 0)
        (xorBits (List.replicate 31 1) (List.replicate 30 0 ++ [1])) = some 2147483646 ∧
      (2147483646 : Int) ≠ ((0 ^^^ 1 : Nat) : Int) ∧
      fcs_calc cvt_sat (1 :: 1 :: List.replicate 30 0)
          (xorBits (List.replicate 31 1) (List.replicate 30 0 ++ [1]))
        ≠ fcs_calc cvt_sat (1 :: 1 :: List.replicate 30 0) (List.replicate 30 0 ++ [1]) := by
  have hkv : dec cvt_sat (1 :: 1 :: List.replicate 30 0) = -1073741825 := by decide
  have hg : ∀ r : Int, fcs_loop r (-1073741825) = r := fun r =>
    fcs_loop_of_not_guard (fun h => absurd h.2.2.2.1 (by decide))
  have hA : fcs_calc cvt_sat (1 :: 1 :: List.replicate 30 0) (List.replicate 31 1)
      = some 0 := by
    unfold fcs_calc
    simp only [hkv, hg, show dec cvt_sat (List.replicate 31 1) = 2147483647 from by decide]
    decide
  have hB : fcs_calc cvt_sat (1 :: 1 :: List.replicate 30 0) (List.replicate 30 0 ++ [1])
      = some 1 := by
    unfold fcs_calc
    simp only [hkv, hg, show dec cvt_sat (List.replicate 30 0 ++ [1]) = 1 from by decide]
    decide
  have hAB : fcs_calc cvt_sat (1 :: 1 :: List.replicate 30 0)
      (xorBits (List.replicate 31 1) (List.replicate 30 0 ++ [1])) = some 2147483646 := by
    unfold fcs_calc
    simp only [hkv, hg,
      show dec cvt_sat (xorBits (List.replicate 31 1) (List.replicate 30 0 ++ [1]))
        = 2147483646 from by decide]
    decide
  refine ⟨by decide, hkv, by rw [hkv]; decide, by decide, by decide, by decide, by decide,
    hA, hB, hAB, by decide, ?_⟩
  rw [hAB, hB]
  decide

/-- C18, amended. Linearity of the remainder where the modulus of the last line
of `fcs_calc` is a power of two or `INT_MIN`: for a non-zero key that has at
most 31 digits, or any length when the out-of-range conversion yields
`INT_MIN` (x86-64), and two packets `A`, `B` of the same length of at most 31
binary digits, `fcs_calc(key, A XOR B) = fcs_calc(key, A) XOR fcs_calc(key, B)`
with the digit-wise XOR of the packets; so for a valid frame `F` and any flip
pattern `E`, `fcs_calc(key, F XOR E) = fcs_calc(key, E)`; and in `crc` (binary
key, frame of at most 31 digits) the receiver is the sender XOR the flip
pattern of the draws, the returned flag is the flag of the flip pattern alone,
and any other call of `crc` whose draws give the same flip pattern returns the
same flag, whatever data it sends. -/
theorem fcs_calc_linear (ovf : Nat → Int) (RAND_MAX : Nat) (rnd : Nat → Nat)
    (pos data_len : Nat) (ber : ℚ) (key a b : List Int)
    (hnz : dec ovf key ≠ 0)
    (hm : key.length ≤ 31 ∨ powInt ovf ((key.length : Int) - 1) = -2147483648)
    (ha : IsBits a) (hb : IsBits b) (hlen : a.length = b.length) (hal : a.length ≤ 31) :
    (∃ ra rb : Nat, fcs_calc ovf key a = some (ra : Int) ∧
        fcs_calc ovf key b = some (rb : Int) ∧
        fcs_calc ovf key (xorBits a b) = some ((ra ^^^ rb : Nat) : Int)) ∧
    (fcs_calc ovf key a = some 0 →
        fcs_calc ovf key (xorBits a b) = fcs_calc ovf key b) ∧
    (IsBits key → data_len + key.length - 1 ≤ 31 →
        ∃ l : CrcLocals, crcLocals ovf RAND_MAX rnd pos data_len key ber = some l ∧
          l.receiver = xorBits l.sender
            (flipPattern RAND_MAX rnd ber (data_len + key.length - 1) (pos + data_len)) ∧
          errorFlag ovf key
            (flipPattern RAND_MAX rnd ber (data_len + key.length - 1) (pos + data_len))
            = some l.error ∧
          ∀ (rnd2 : Nat → Nat) (pos2 : Nat) (l2 : CrcLocals),
            crcLocals ovf RAND_MAX rnd2 pos2 data_len key ber = some l2 →
            flipPattern RAND_MAX rnd2 ber (data_len + key.length - 1) (pos2 + data_len)
              = flipPattern RAND_MAX rnd ber (data_len + key.length - 1) (pos + data_len) →
            l2.error = l.error) := by
  have hk1 : 1 ≤ key.length := by
    cases key with
    | nil => exact absurd rfl hnz
    | cons d ds => simp
  have hm1 : (1 ≤ key.length ∧ key.length ≤ 31) ∨
      powInt ovf ((key.length : Int) - 1) = -2147483648 := by
    rcases hm with h | h
    · exact Or.inl ⟨hk1, h⟩
    · exact Or.inr h
  have hm0 : powInt ovf ((key.length : Int) - 1) ≠ 0 := by
    rcases hm1 with ⟨h1, h2⟩ | h
    · rw [powInt_pred ovf h1 h2]; positivity
    · rw [h]; decide
  have hlin := fcs_calc_xorBits ovf hm1 ha hb hlen hal
  refine ⟨hlin, ?_, ?_⟩
  · intro h0
    obtain ⟨ra, rb, e1, e2, e3⟩ := hlin
    rw [h0] at e1
    have hra : ra = 0 := by
      have := Option.some.inj e1
      exact_mod_cast this.symm
    subst hra
    rw [e3, e2, Nat.zero_xor]
  · intro hk hfl
    obtain ⟨l, hl⟩ := crcLocals_isSome_of_modulus ovf RAND_MAX rnd pos data_len key ber hm0
    obtain ⟨hrec, herr⟩ :=
      crcLocals_error_of_pattern ovf RAND_MAX rnd pos data_len ber hk hm1 hfl l hl
    refine ⟨l, hl, hrec, herr, ?_⟩
    intro rnd2 pos2 l2 hl2 hpat
    have herr2 :=
      (crcLocals_error_of_pattern ovf RAND_MAX rnd2 pos2 data_len ber hk hm1 hfl l2 hl2).2
    rw [hpat, herr] at herr2
    exact (Option.some.inj herr2).symm

set_option maxRecDepth 20000 in
/-- Witness of the amended C18: the key `110101` and the packets `10100011`
and `01100110`; and, with the out-of-range conversion of x86-64, the 33-digit
key `11` `0...0` `11` and the packets `101` and `011`. -/
theorem fcs_calc_linear_witness :
    ((∃ ra rb : Nat, fcs_calc cvt_x86 [1, 1, 0, 1, 0, 1] [1, 0, 1, 0, 0, 0, 1, 1] = some (ra : Int) ∧
        fcs_calc cvt_x86 [1, 1, 0, 1, 0, 1] [0, 1, 1, 0, 0, 1, 1, 0] = some (rb : Int) ∧
        fcs_calc cvt_x86 [1, 1, 0, 1, 0, 1]
          (xorBits [1, 0, 1, 0, 0, 0, 1, 1] [0, 1, 1, 0, 0, 1, 1, 0])
          = some ((ra ^^^ rb : Nat) : Int)) ∧
    (fcs_calc cvt_x86 [1, 1, 0, 1, 0, 1] [1, 0, 1, 0, 0, 0, 1, 1] = some 0 →
        fcs_calc cvt_x86 [1, 1, 0, 1, 0, 1]
          (xorBits [1, 0, 1, 0, 0, 0, 1, 1] [0, 1, 1, 0, 0, 1, 1, 0])
          = fcs_calc cvt_x86 [1, 1, 0, 1, 0, 1] [0, 1, 1, 0, 0, 1, 1, 0]) ∧
    (IsBits [1, 1, 0, 1, 0, 1] → 20 + ([1, 1, 0, 1, 0, 1] : List Int).length - 1 ≤ 31 →
        ∃ l : CrcLocals,
          crcLocals cvt_x86 2147483647 (fun i => i * 7919) 0 20 [1, 1, 0, 1, 0, 1] (1 / 2)
            = some l ∧
          l.receiver = xorBits l.sender
            (flipPattern 2147483647 (fun i => i * 7919) (1 / 2)
              (20 + ([1, 1, 0, 1, 0, 1] : List Int).length - 1) (0 + 20)) ∧
          errorFlag cvt_x86 [1, 1, 0, 1, 0, 1]
            (flipPattern 2147483647 (fun i => i * 7919) (1 / 2)
              (20 + ([1, 1, 0, 1, 0, 1] : List Int).length - 1) (0 + 20))
            = some l.error ∧
          ∀ (rnd2 : Nat → Nat) (pos2 : Nat) (l2 : CrcLocals),
            crcLocals cvt_x86 2147483647 rnd2 pos2 20 [1, 1, 0, 1, 0, 1] (1 / 2) = some l2 →
            flipPattern 2147483647 rnd2 (1 / 2)
                (20 + ([1, 1, 0, 1, 0, 1] : List Int).length - 1) (pos2 + 20)
              = flipPattern 2147483647 (fun i => i * 7919) (1 / 2)
                (20 + ([1, 1, 0, 1, 0, 1] : List Int).length - 1) (0 + 20) →
            l2.error = l.error)) ∧
    (∃ ra rb : Nat,
      fcs_calc cvt_x86 (1 :: 1 :: List.replicate 29 0 ++ [1, 1]) [1, 0, 1] = some (ra : Int) ∧
      fcs_calc cvt_x86 (1 :: 1 :: List.replicate 29 0 ++ [1, 1]) [0, 1, 1] = some (rb : Int) ∧
      fcs_calc cvt_x86 (1 :: 1 :: List.replicate 29 0 ++ [1, 1]) (xorBits [1, 0, 1] [0, 1, 1])
        = some ((ra ^^^ rb : Nat) : Int)) :=
  ⟨fcs_calc_linear cvt_x86 2147483647 (fun i => i * 7919) 0 20 (1 / 2) [1, 1, 0, 1, 0, 1]
      [1, 0, 1, 0, 0, 0, 1, 1] [0, 1, 1, 0, 0, 1, 1, 0]
      (by decide) (Or.inl (by decide)) (by decide) (by decide) (by decide) (by decide),
    (fcs_calc_linear cvt_x86 2147483647 (fun i => i * 7919) 0 20 (1 / 2)
      (1 :: 1 :: List.replicate 29 0 ++ [1, 1]) [1, 0, 1] [0, 1, 1]
      (by decide) (Or.inr (by decide)) (by decide) (by decide) (by decide) (by decide)).1⟩

/-! ## Absence of overflow within the supported width -/

theorem decLoopZ_eq (ds : List Int) (t : Int) : decLoopZ ds t = t + beVal ds := by
  induction ds generalizing t with
  | nil => simp [decLoopZ, beVal]
  | cons d ds ih => rw [decLoopZ, ih, beVal]; ring

theorem decZ_eq_beVal (num : List Int) : decZ num = beVal num := by
  rw [decZ, decLoopZ_eq]; simp

theorem two_pow_le_31 {n : Nat} (h : n ≤ 31) : (2 : Int) ^ n ≤ 2147483648 :=
  pow_le_pow31 h

/-- The loop of `dec` after the digits of `pre`: the running total is the
value of `pre` shifted by the number of digits still to come. -/
theorem decLoop_reached (ovf : Nat → Int) (pre rest : List Int) (t : Int)
    (hb : IsBits (pre ++ rest)) (hlen : (pre ++ rest).length ≤ 31) (ht : 0 ≤ t)
    (hfit : t + (beVal pre + 1) * 2 ^ rest.length ≤ 2147483648) :
    decLoop ovf (pre ++ rest) t = decLoop ovf rest (t + beVal pre * 2 ^ rest.length) := by
  induction pre generalizing t with
  | nil => simp [beVal]
  | cons x xs ih =>
    have hc := isBits_cons.mp hb
    have hxs := (isBits_append.mp hc.2).1
    have hnn := beVal_nonneg hxs
    simp only [List.cons_append, List.length_cons, List.length_append] at hlen
    have hR : (0 : Int) < 2 ^ rest.length := by positivity
    have hL : (0 : Int) < 2 ^ xs.length := by positivity
    have hpow : (2 : Int) ^ (xs.length + rest.length) = 2 ^ xs.length * 2 ^ rest.length :=
      pow_add _ _ _
    have hx0 : 0 ≤ x * 2 ^ (xs.length + rest.length) := by
      rcases hc.1 with e | e <;> subst e <;> simp
    have hfit2 : t + x * 2 ^ (xs.length + rest.length) + (beVal xs + 1) * 2 ^ rest.length
        ≤ 2147483648 := by
      have : t + (beVal (x :: xs) + 1) * 2 ^ rest.length
          = t + x * 2 ^ (xs.length + rest.length) + (beVal xs + 1) * 2 ^ rest.length := by
        rw [beVal, hpow]; ring
      rw [← this]; exact hfit
    have hpos : 0 < (beVal xs + 1) * 2 ^ rest.length := by positivity
    show decLoop ovf (x :: (xs ++ rest)) t = _
    rw [decLoop, List.length_append, Nat.cast_add]
    have hp : powInt ovf ((xs.length : Int) + (rest.length : Int))
        = 2 ^ (xs.length + rest.length) := by
      have := powInt_small ovf (by omega : xs.length + rest.length ≤ 30)
      rwa [Nat.cast_add] at this
    rw [hp, wrap32_id (x * 2 ^ (xs.length + rest.length)) (by omega) (by omega),
      wrap32_id (t + x * 2 ^ (xs.length + rest.length)) (by omega) (by omega),
      ih _ hc.2 (by simp only [List.length_append]; omega) (by omega) hfit2]
    congr 1
    rw [beVal, hpow]; ring

theorem decInRange_of_bits (ovf : Nat → Int) (num : List Int) (hb : IsBits num)
    (hlen : num.length ≤ 31) : DecInRange ovf num := by
  intro pre d post hnum
  subst hnum
  have hb2 := isBits_append.mp hb
  have hd := (isBits_cons.mp hb2.2).1
  simp only [List.length_append, List.length_cons] at hlen
  have hpre0 := beVal_nonneg hb2.1
  have hpre1 := beVal_lt hb2.1
  have hP : (0 : Int) < 2 ^ post.length := by positivity
  have htot : (2 : Int) ^ pre.length * 2 ^ (post.length + 1) ≤ 2147483648 := by
    rw [← pow_add]; exact pow_le_pow31 (by omega)
  have hsucc : (2 : Int) ^ (post.length + 1) = 2 * 2 ^ post.length := by
    rw [pow_succ]; ring
  have hmul : (beVal pre + 1) * 2 ^ (post.length + 1)
      ≤ 2 ^ pre.length * 2 ^ (post.length + 1) :=
    mul_le_mul_of_nonneg_right (by omega) (by positivity)
  have hd0 : 0 ≤ d * 2 ^ post.length ∧ d * 2 ^ post.length ≤ 2 ^ post.length := by
    rcases hd with e | e <;> subst e <;> simp
  have hT0 : 0 ≤ beVal pre * 2 ^ (post.length + 1) := by positivity
  have hexp : (beVal pre + 1) * 2 ^ (post.length + 1)
      = beVal pre * 2 ^ (post.length + 1) + 2 * 2 ^ post.length := by
    rw [hsucc]; ring
  refine ⟨?_, by omega, powInt_small ovf (by omega), ⟨le_of_lt hP, ?_⟩, ⟨hd0.1, ?_⟩,
    ⟨hT0, ?_⟩, ⟨by omega, ?_⟩⟩
  · unfold dec
    rw [decLoop_reached ovf pre (d :: post) 0 hb
      (by simp only [List.length_append, List.length_cons]; omega) (le_refl 0)
      (by rw [List.length_cons]; omega)]
    simp
  · have := pow_le_pow31 (by omega : post.length ≤ 31)
    have : (2 : Int) ^ post.length < 2 * 2 ^ post.length := by omega
    omega
  · omega
  · omega
  · omega

theorem loopState_natCast_le (n a b : Nat) :
    ∃ c : Nat, loopState n (a : Int) (b : Int) = (c : Int) ∧ c ≤ a := by
  induction n generalizing a with
  | zero => exact ⟨a, rfl, le_refl a⟩
  | succ n ih =>
    by_cases hg : loopGuard (a : Int) (b : Int)
    · obtain ⟨ha, hb, hl⟩ := (loopGuard_natCast a b).mp hg
      obtain ⟨c, e1, e2⟩ := ih (a ^^^ (b <<< (a.log2 - b.log2)))
      have := xor_shift_lt a b ha hb hl
      refine ⟨c, ?_, by omega⟩
      rw [loopState, if_pos hg, loopStep_natCast]; exact e1
    · exact ⟨a, by rw [loopState, if_neg hg], le_refl a⟩

theorem loopInRange_natCast (a b : Nat) (ha : a < 2147483648) :
    LoopInRange (a : Int) (b : Int) := by
  intro n
  obtain ⟨c, e1, e2⟩ := loopState_natCast_le n a b
  rw [e1]
  simp only [Int.toNat_ofNat]
  refine ⟨⟨by positivity, by omega⟩, ?_⟩
  intro hg
  obtain ⟨hc, hb, hl⟩ := (loopGuard_natCast c b).mp hg
  have hlog : c.log2 < 31 := (Nat.log2_lt hc).mpr (by
    have : (2 : Nat) ^ 31 = 2147483648 := by norm_num
    omega)
  have hsh := shiftLeft_lt_two_pow b (c.log2 - b.log2)
  have hexp : c.log2 - b.log2 + 1 + b.log2 = c.log2 + 1 := by omega
  rw [hexp] at hsh
  have hpow : 2 ^ (c.log2 + 1) ≤ 2 ^ 31 := Nat.pow_le_pow_right (by decide) (by omega)
  have h31 : (2 : Nat) ^ 31 = 2147483648 := by norm_num
  have hstep := xor_shift_lt c b hc hb hl
  refine ⟨by omega, ⟨by positivity, by omega⟩, ?_⟩
  rw [loopStep_natCast]
  exact ⟨by positivity, by omega⟩

/-- C19. No integer overflow within the supported width: for a key of 1 to 31
binary digits and a packet of at most 31 binary digits, every intermediate
value of `dec` (each power of two, each product, each partial sum) and of
`fcs_calc` (`r`, `p`, the shifted divisor, each XOR result, the modulus
`2^(key_len - 1)`) lies in `[0, 2^31)`, every shift amount is at most 30 and
the modulus is not 0; the 32-bit computation equals the computation over the
unbounded integers and the final `%` does not divide by zero. -/
theorem no_overflow_within_width (ovf : Nat → Int) (key packet : List Int)
    (hk : IsBits key) (hk1 : 1 ≤ key.length) (hk2 : key.length ≤ 31)
    (hp : IsBits packet) (hpl : packet.length ≤ 31) :
    DecInRange ovf key ∧ DecInRange ovf packet ∧
    InInt31 (dec ovf packet) ∧ InInt31 (dec ovf key) ∧
    dec ovf packet = decZ packet ∧ dec ovf key = decZ key ∧
    LoopInRange (dec ovf packet) (dec ovf key) ∧
    (powInt ovf ((key.length : Int) - 1) = 2 ^ (key.length - 1) ∧
      InInt31 (powInt ovf ((key.length : Int) - 1)) ∧
      powInt ovf ((key.length : Int) - 1) ≠ 0) ∧
    fcs_calc ovf key packet = some (fcs_calcZ key packet) := by
  have hkv := dec_eq_natVal ovf hk hk2
  have hpv := dec_eq_natVal ovf hp hpl
  have hkb := dec_eq_beVal ovf key hk hk2
  have hpb := dec_eq_beVal ovf packet hp hpl
  have h31 : (2 : Nat) ^ 31 = 2147483648 := by norm_num
  have hkr : natVal key < 2147483648 := by
    have := natVal_lt hk
    have := Nat.pow_le_pow_right (by decide : 0 < 2) hk2
    omega
  have hpr : natVal packet < 2147483648 := by
    have := natVal_lt hp
    have := Nat.pow_le_pow_right (by decide : 0 < 2) hpl
    omega
  have hmod := powInt_pred ovf hk1 hk2
  have hm1 : (0 : Int) < 2 ^ (key.length - 1) := by positivity
  have hm2 : (2 : Int) ^ (key.length - 1) < 2147483648 := by
    have h1 : (2 : Int) ^ (key.length - 1) ≤ 2 ^ 30 :=
      pow_le_pow_right₀ (by norm_num) (by omega)
    have h2 : (2 : Int) ^ 30 = 1073741824 := by norm_num
    omega
  refine ⟨decInRange_of_bits ovf key hk hk2, decInRange_of_bits ovf packet hp hpl,
    ?_, ?_, ?_, ?_, ?_, ⟨hmod, ?_, ?_⟩, ?_⟩
  · rw [hpv]; exact ⟨by positivity, by omega⟩
  · rw [hkv]; exact ⟨by positivity, by omega⟩
  · rw [hpb, decZ_eq_beVal]
  · rw [hkb, decZ_eq_beVal]
  · rw [hpv, hkv]; exact loopInRange_natCast _ _ hpr
  · rw [hmod]; exact ⟨le_of_lt hm1, hm2⟩
  · rw [hmod]; exact ne_of_gt hm1
  · obtain ⟨R, e1, _, e3⟩ := fcs_calc_eq ovf key hp hpl hk1 hk2
    rw [e3]
    unfold fcs_calcZ
    rw [decZ_eq_beVal, decZ_eq_beVal, ← hkb, ← natVal_cast hp, e1]
    push_cast
    rfl

/-- Witness of C19: the key `110101` and the packet `101000110100000`. -/
theorem no_overflow_within_width_witness :
    DecInRange cvt_x86 [1, 1, 0, 1, 0, 1] ∧
    DecInRange cvt_x86 [1, 0, 1, 0, 0, 0, 1, 1, 0, 1, 0, 0, 0, 0, 0] ∧
    InInt31 (dec cvt_x86 [1, 0, 1, 0, 0, 0, 1, 1, 0, 1, 0, 0, 0, 0, 0]) ∧
    InInt31 (dec cvt_x86 [1, 1, 0, 1, 0, 1]) ∧
    dec cvt_x86 [1, 0, 1, 0, 0, 0, 1, 1, 0, 1, 0, 0, 0, 0, 0]
      = decZ [1, 0, 1, 0, 0, 0, 1, 1, 0, 1, 0, 0, 0, 0, 0] ∧
    dec cvt_x86 [1, 1, 0, 1, 0, 1] = decZ [1, 1, 0, 1, 0, 1] ∧
    LoopInRange (dec cvt_x86 [1, 0, 1, 0, 0, 0, 1, 1, 0, 1, 0, 0, 0, 0, 0])
      (dec cvt_x86 [1, 1, 0, 1, 0, 1]) ∧
    (powInt cvt_x86 ((([1, 1, 0, 1, 0, 1] : List Int).length : Int) - 1)
        = 2 ^ (([1, 1, 0, 1, 0, 1] : List Int).length - 1) ∧
      InInt31 (powInt cvt_x86 ((([1, 1, 0, 1, 0, 1] : List Int).length : Int) - 1)) ∧
      powInt cvt_x86 ((([1, 1, 0, 1, 0, 1] : List Int).length : Int) - 1) ≠ 0) ∧
    fcs_calc cvt_x86 [1, 1, 0, 1, 0, 1] [1, 0, 1, 0, 0, 0, 1, 1, 0, 1, 0, 0, 0, 0, 0]
      = some (fcs_calcZ [1, 1, 0, 1, 0, 1] [1, 0, 1, 0, 0, 0, 1, 1, 0, 1, 0, 0, 0, 0, 0]) :=
  no_overflow_within_width cvt_x86 [1, 1, 0, 1, 0, 1]
    [1, 0, 1, 0, 0, 0, 1, 1, 0, 1, 0, 0, 0, 0, 0]
    (by decide) (by decide) (by decide) (by decide) (by decide)

end CRC
